import Mathlib

/-!
# cache-system: an in-memory key-value cache with TTL expiry and a byte budget

A shallow embedding of `util/util.go` (size-string parsing, reflective size
estimation) and `cache/memory-cache.go` (the store), followed by theorems about
them.

Modelling conventions

* Go's `int64` and `uintptr` are 64 bits wide.  An `int64` is an `Int`, and every
  arithmetic result is passed through `wrap64` (two's complement wrap-around, which
  is what Go specifies for signed overflow).  A `uintptr` is a `Nat` reduced
  modulo `2 ^ 64` by `wrapU64`.
* `time.Time` is an `Int` (an instant on one time line, in nanoseconds) and
  `time.Duration` is an `Int`; `t.Add(d)` is `t + d` and `t.Before(u)` is `t < u`.
  `time.Now()` is an explicit argument `now` of every operation that reads the clock.
* A Go string is a Lean `String`, a sequence of Unicode code points (valid UTF-8); its
  length in bytes is `String.utf8ByteSize`, and `range` over it yields its characters.
* The tables behind `unicode.IsDigit`, `unicode.IsLetter` and `unicode.ToUpper` are a
  parameter `UnicodeTables`, constrained on ASCII; `strconv.ParseInt` is modelled from
  its documented behaviour for base 10 and 64 bits.
* A Go `map[string]*Value` is an `AList`: a finite association list with pairwise
  distinct keys.  No code path stores a nil `*Value`, so the entries are values, not
  options.
* The mutex `locker` and the ticker are not part of the state.  A call of a public
  method is one step taking the store before to the store after: all of them but
  `SetMaxMemory`, which writes the two budget fields and nothing else, hold the lock
  from their first to their last statement.  The sweeper is not one step: a step is
  one iteration of its range loop, whose test of the yielded entry runs unlocked and
  may concern an entry that has been replaced since; see `Op.sweepEntry`.
  Where each method locks, unlocks and touches the shared fields is recorded apart, in
  the traces `SetTrace`, `GetTrace`, ..., `clearExpireCacheTrace`.
* Go values (`any`) are finite trees `GoVal`; cyclic pointer structures and sharing
  are not represented.
-/

namespace CacheSystem

/-! ## Machine integers -/

/-- Two's complement wrap-around of an integer into the `int64` range. -/
def wrap64 (x : Int) : Int := (x + 2 ^ 63) % 2 ^ 64 - 2 ^ 63

/-- Reduction of a natural number into the `uintptr` range (64-bit target). -/
def wrapU64 (n : Nat) : Nat := n % 2 ^ 64

/-- The Go conversion `int64(x)` of a `uintptr`: the same 64 bits read as a signed
number. -/
def toInt64 (n : Nat) : Int :=
  if n % 2 ^ 64 < 2 ^ 63 then ((n % 2 ^ 64 : Nat) : Int) else ((n % 2 ^ 64 : Nat) : Int) - 2 ^ 64

/-- Membership in the `int64` range. -/
def InInt64 (x : Int) : Prop := -(2 ^ 63) ≤ x ∧ x < 2 ^ 63

/-! ## Go values and `SizeOfVariable` (util/util.go) -/

/-- A Go value as seen by `reflect`: the constructor is its `Kind`.  `nil` is the
untyped nil interface (kind `Invalid`, which is also the kind of the zero
`reflect.Value`); `float` is a floating-point or complex number, of which only whether
it is a NaN is kept; `other` stands for every remaining kind (channels, functions,
unsafe pointers, unsigned integers), named by `kind`.  In `map kvs`, `kvs` lists every
key of the map with the value stored under it. -/
inductive GoVal where
  | nil
  | bool (b : Bool)
  | int (i : Int)
  | float (isNaN : Bool)
  | other (kind : String)
  | str (s : String)
  | slice (elems : List GoVal)
  | array (elems : List GoVal)
  | map (kvs : List (GoVal × GoVal))
  | ptr (target : Option GoVal)
  | iface (dyn : Option GoVal)
  | struct (fields : List GoVal)

/-- The constant `unsafe.Sizeof(val.Interface())`: the size of an interface value,
two machine words.  Being a constant expression, its argument is never evaluated. -/
def sizeofInterface : Nat := 16

mutual
/-- Go's `k == k`: false for a NaN and for an array, struct or interface value that
holds one.  A map key that is not equal to itself is never found by a lookup. -/
def selfEqual : GoVal → Bool
  | .float isNaN => !isNaN
  | .array elems => allSelfEqual elems
  | .struct fields => allSelfEqual fields
  | .iface (some dyn) => selfEqual dyn
  | _ => true
/-- Whether every value of the list is equal to itself. -/
def allSelfEqual : List GoVal → Bool
  | [] => true
  | x :: rest => selfEqual x && allSelfEqual rest
end

mutual
/-- The function `calculateSize` of util.go, by cases on `val.Kind()`.  For a string,
`val.Len()` is a non-negative `int`, which `uintptr` holds exactly. -/
def calculateSize : GoVal → Nat
  | .str s => s.utf8ByteSize
  | .slice elems => sumElems 0 elems
  | .array elems => sumElems 0 elems
  | .map kvs => sumPairs 0 kvs
  | .ptr none => 0
  | .ptr (some target) => calculateSize target
  | .iface none => 0
  | .iface (some dyn) => calculateSize dyn
  | .struct fields => sumElems 0 fields
  | .nil => sizeofInterface
  | .bool _ => sizeofInterface
  | .int _ => sizeofInterface
  | .float _ => sizeofInterface
  | .other _ => sizeofInterface
/-- The loop `for i := 0; i < val.Len(); i++ { size += calculateSize(val.Index(i)) }`
with accumulator `size`. -/
def sumElems : Nat → List GoVal → Nat
  | size, [] => size
  | size, x :: rest => sumElems (wrapU64 (size + calculateSize x)) rest
/-- The loop over `val.MapKeys()`: `size += calculateSize(key)` and then
`size += calculateSize(val.MapIndex(key))`.  `val.MapIndex(key)` is the value stored
under the key when the lookup finds the key, and the zero `reflect.Value` (kind
`Invalid`, estimated like every kind of the default branch) when it does not, which
is the case of a key that is not equal to itself. -/
def sumPairs : Nat → List (GoVal × GoVal) → Nat
  | size, [] => size
  | size, (k, v) :: rest =>
    sumPairs
      (wrapU64 (wrapU64 (size + calculateSize k)
        + (if selfEqual k then calculateSize v else sizeofInterface))) rest
end

/-- The function `SizeOfVariable` of util.go. -/
def SizeOfVariable (v : GoVal) : Nat := calculateSize v

/-- The character tables of Go's `unicode` package that `ParseSize` consults.  They
belong to the Go standard library, not to this repository, and are taken as a
parameter; the laws record how they act on ASCII and that no character outside
ASCII is mapped onto a letter of a unit name. -/
structure UnicodeTables where
  /-- Go's `unicode.IsDigit`. -/
  IsDigit : Char → Bool
  /-- Go's `unicode.IsLetter`. -/
  IsLetter : Char → Bool
  /-- Go's `unicode.ToUpper`. -/
  ToUpper : Char → Char
  isDigit_ascii : ∀ c : Char, c.toNat < 128 → IsDigit c = c.isDigit
  isLetter_ascii : ∀ c : Char, c.toNat < 128 → IsLetter c = c.isAlpha
  toUpper_ascii : ∀ c : Char, c.toNat < 128 → ToUpper c = c.toUpper
  toUpper_unit : ∀ c : Char, 128 ≤ c.toNat → ToUpper c ∉ ['B', 'K', 'M', 'G', 'T']

/-- The tables restricted to ASCII: no character outside ASCII is a digit or a
letter, and upper-casing leaves it alone.  Every `UnicodeTables` agrees with this
one on ASCII text. -/
def asciiTables : UnicodeTables where
  IsDigit c := c.isDigit
  IsLetter c := c.isAlpha
  ToUpper c := c.toUpper
  isDigit_ascii _ _ := rfl
  isLetter_ascii _ _ := rfl
  toUpper_ascii _ _ := rfl
  toUpper_unit c h := by
    have hu : c.toUpper = c := by
      have hn : ¬ (c.toNat ≥ 97 ∧ c.toNat ≤ 122) := by omega
      show (if c.toNat ≥ 97 ∧ c.toNat ≤ 122 then Char.ofNat (c.toNat - 32) else c) = c
      rw [if_neg hn]
    show c.toUpper ∉ ['B', 'K', 'M', 'G', 'T']
    rw [hu]
    intro hmem
    simp only [List.mem_cons, List.mem_singleton, List.not_mem_nil, or_false] at hmem
    rcases hmem with h1 | h1 | h1 | h1 | h1 <;> rw [h1] at h <;> revert h <;> decide

/-- The `Err` of a `*strconv.NumError`. -/
inductive NumError where
  | ErrSyntax
  | ErrRange
  deriving DecidableEq, Repr

/-- The digit loop of `strconv.ParseUint(s, 10, 64)` with accumulator `n`: a
character outside `0`..`9` is a syntax error, a value above `2 ^ 64 - 1` a range
error. -/
def parseUintLoop : Nat → List Char → Except NumError Nat
  | n, [] => .ok n
  | n, c :: rest =>
    if c.isDigit then
      let n1 := n * 10 + (c.toNat - 48)
      if n1 ≥ 2 ^ 64 then .error .ErrRange else parseUintLoop n1 rest
    else .error .ErrSyntax

/-- Go's `strconv.ParseUint(s, 10, 64)`. -/
def ParseUint (s : List Char) : Except NumError Nat :=
  if s = [] then .error .ErrSyntax else parseUintLoop 0 s

/-- Go's `strconv.ParseInt(s, 10, 64)`: an optional sign, then `ParseUint`, then the
check against the `int64` range. -/
def ParseInt (s : String) : Except NumError Int :=
  match s.data with
  | [] => .error .ErrSyntax
  | c :: rest =>
    let neg := c == '-'
    let digits := if c == '+' || c == '-' then rest else c :: rest
    match ParseUint digits with
    | .error e => .error e
    | .ok un =>
      if !neg && un ≥ 2 ^ 63 then .error .ErrRange
      else if neg && un > 2 ^ 63 then .error .ErrRange
      else .ok (if neg then -(un : Int) else (un : Int))

/-- The constants `BYTE`, `KB`, `MB`, `GB`, `TB` of util.go: `1 << (iota * 10)`. -/
def BYTE : Int := 1
/-- The constant `KB = 1 << 10`. -/
def KB : Int := 2 ^ 10
/-- The constant `MB = 1 << 20`. -/
def MB : Int := 2 ^ 20
/-- The constant `GB = 1 << 30`. -/
def GB : Int := 2 ^ 30
/-- The constant `TB = 1 << 40`. -/
def TB : Int := 2 ^ 40

/-- The first loop of `ParseSize`: digits are appended to `n`, letters to `u`, every
other character is skipped. -/
def splitSize (U : UnicodeTables) : String → String → List Char → String × String
  | n, u, [] => (n, u)
  | n, u, value :: rest =>
    if U.IsDigit value then splitSize U (n.push value) u rest
    else if U.IsLetter value then splitSize U n (u.push value) rest
    else splitSize U n u rest

/-- Go's `strings.ToUpper`: `unicode.ToUpper` applied to every character. -/
def stringsToUpper (U : UnicodeTables) (s : String) : String := ⟨s.data.map U.ToUpper⟩

/-- The function `ParseSize` of util.go.  The result is the triple
`(bytes, label, err)`, with `err = none` for Go's `nil`. -/
def ParseSize (U : UnicodeTables) (size : String) : Int × String × Option NumError :=
  let nu := splitSize U "" "" size.data
  let n := nu.1
  let u := stringsToUpper U nu.2
  match ParseInt n with
  | .error err => (100, "100MB", some err)
  | .ok dn =>
    if u = "B" then (dn, n ++ u, none)
    else if u = "KB" then (wrap64 (dn * KB), n ++ u, none)
    else if u = "MB" then (wrap64 (dn * MB), n ++ u, none)
    else if u = "GB" then (wrap64 (dn * GB), n ++ u, none)
    else if u = "TB" then (wrap64 (dn * TB), n ++ u, none)
    else (100, "100MB", none)

/-! ## The store (cache/memory-cache.go) -/

/-- The struct `Value`: a cached value with its expiration time and size. -/
structure Value where
  value : GoVal
  expire : Int
  size : Int

/-- The struct `MemoryCache`, without `locker` and `clearTime`. -/
structure MemoryCache where
  maxMemorySize : Int
  maxMemoryString : String
  currentMemorySize : Int
  cacheMap : AList (fun _ : String => Value)

/-- The store built by `NewMemoryCache`: zero-valued fields and an empty map. -/
def NewMemoryCache : MemoryCache where
  maxMemorySize := 0
  maxMemoryString := ""
  currentMemorySize := 0
  cacheMap := ∅

namespace MemoryCache

/-- The method `deleteKey`: remove `key` and subtract the entry's size. -/
def deleteKey (m : MemoryCache) (key : String) : Bool × MemoryCache :=
  match m.cacheMap.lookup key with
  | some value =>
    (true, { m with
      cacheMap := m.cacheMap.erase key
      currentMemorySize := wrap64 (m.currentMemorySize - value.size) })
  | none => (false, m)

/-- The method `addKey`: `m.cacheMap[key] = value` and add the entry's size. -/
def addKey (m : MemoryCache) (key : String) (value : Value) : MemoryCache :=
  { m with
    cacheMap := m.cacheMap.insert key value
    currentMemorySize := wrap64 (m.currentMemorySize + value.size) }

/-- The method `SetMaxMemory`: all three results of `ParseSize` are assigned, the
first two to the store, before `err` is inspected. -/
def SetMaxMemory (U : UnicodeTables) (m : MemoryCache) (size : String) : Bool × MemoryCache :=
  let r := ParseSize U size
  let m1 := { m with maxMemorySize := r.1, maxMemoryString := r.2.1 }
  match r.2.2 with
  | some _ => (false, m1)
  | none => (true, m1)

/-- The method `Set`, called when the clock reads `now`. -/
def Set (m : MemoryCache) (now : Int) (key : String) (value : GoVal) (expire : Int) :
    Bool × MemoryCache :=
  let v : Value :=
    { value := value, expire := now + expire, size := toInt64 (SizeOfVariable value) }
  if wrap64 (v.size + m.currentMemorySize) > m.maxMemorySize then (false, m)
  else (true, ((m.deleteKey key).2).addKey key v)

/-- The method `Get`, called when the clock reads `now`.  The first component is the
returned pair: the `*Value` found (or `none` for nil) and the flag. -/
def Get (m : MemoryCache) (now : Int) (key : String) : (Option Value × Bool) × MemoryCache :=
  match m.cacheMap.lookup key with
  | none => ((none, false), m)
  | some value =>
    if value.expire < now then ((none, false), (m.deleteKey key).2)
    else ((some value, true), m)

/-- The method `Delete`. -/
def Delete (m : MemoryCache) (key : String) : Bool × MemoryCache := m.deleteKey key

/-- The method `Exists`. -/
def Exists (m : MemoryCache) (key : String) : Bool × MemoryCache :=
  ((m.cacheMap.lookup key).isSome, m)

/-- The method `Flush`. -/
def Flush (m : MemoryCache) : Bool × MemoryCache :=
  (true, { m with cacheMap := ∅, currentMemorySize := 0 })

/-- The method `KeyNum`: `int64(len(m.cacheMap))`.  The length of a map is an `int`,
which `int64` holds exactly. -/
def KeyNum (m : MemoryCache) : Int × MemoryCache :=
  ((m.cacheMap.entries.length : Int), m)

/-- The body of the range loop of `clearExpireCache` for one entry `(key, value)`
of the scan, when the clock reads `now`. -/
def sweepEntry (now : Int) (m : MemoryCache) (e : Sigma (fun _ : String => Value)) :
    MemoryCache :=
  if e.2.expire < now then (m.deleteKey e.1).2 else m

/-- The range loop of `clearExpireCache` over the entries `l`, with no other operation
in between: the iteration of index `i` reads `clock i` from `time.Now()`. -/
def sweepFrom (clock : Nat → Int) :
    Nat → MemoryCache → List (Sigma (fun _ : String => Value)) → MemoryCache
  | _, m, [] => m
  | i, m, e :: l => sweepFrom clock (i + 1) (sweepEntry (clock i) m e) l

/-- One pass of `clearExpireCache` (one tick) that no other operation interrupts: a
scan over the entries present when the pass starts, the clock being read anew for
every entry.  The order of a `range` over a map is not specified; the scan follows the
list of entries, and `clock i` is the reading for the entry at position `i` of that
list, whenever its iteration comes.  Passes that other operations interleave with are
sequences of `sweepEntry` steps, see `Op.sweepEntry`. -/
def clearExpireCache (m : MemoryCache) (clock : Nat → Int) : MemoryCache :=
  sweepFrom clock 0 m m.cacheMap.entries

end MemoryCache

/-! ## Sequences of operations -/

/-- One call on the store with the clock reading it sees, or one iteration of the
range loop of the sweeper.  In `sweepEntry now e`, `e` is the entry that the range
statement yielded and `now` the clock reading of the test `value.expire.Before`; the
test runs with no lock held, so by the time the iteration takes the lock and calls
`deleteKey`, the map may hold another entry under the key of `e`. -/
inductive Op where
  | SetMaxMemory (size : String)
  | Set (now : Int) (key : String) (value : GoVal) (expire : Int)
  | Get (now : Int) (key : String)
  | Delete (key : String)
  | Exists (key : String)
  | Flush
  | KeyNum
  | sweepEntry (now : Int) (e : Sigma (fun _ : String => Value))

/-- The store after one operation. -/
def step (U : UnicodeTables) (m : MemoryCache) : Op → MemoryCache
  | .SetMaxMemory size => (m.SetMaxMemory U size).2
  | .Set now key value expire => (m.Set now key value expire).2
  | .Get now key => (m.Get now key).2
  | .Delete key => (m.Delete key).2
  | .Exists key => (m.Exists key).2
  | .Flush => m.Flush.2
  | .KeyNum => m.KeyNum.2
  | .sweepEntry now e => MemoryCache.sweepEntry now m e

/-- The store after a sequence of operations, performed from left to right. -/
def run (U : UnicodeTables) (m : MemoryCache) (ops : List Op) : MemoryCache :=
  ops.foldl (step U) m

/-- Whether the operation is a `Set` or `Delete` of key `k`, or a `Flush`. -/
def Op.touches (k : String) : Op → Bool
  | .Set _ key _ _ => key == k
  | .Delete key => key == k
  | .Flush => true
  | _ => false

/-- Whether the operation reads the clock at `t` or earlier (operations that do not
read the clock qualify). -/
def Op.notAfter (t : Int) : Op → Bool
  | .Set now _ _ _ => decide (now ≤ t)
  | .Get now _ => decide (now ≤ t)
  | .sweepEntry now _ => decide (now ≤ t)
  | _ => true

/-- Whether a sweeper iteration on key `k` tests the entry `e0`: true of every
operation but a sweeper iteration whose entry has the key `k` and is not `e0`. -/
def Op.sweepsCurrent (k : String) (e0 : Value) : Op → Prop
  | .sweepEntry _ e => e.1 = k → e.2 = e0
  | _ => True

/-! ## The byte total of a map -/

/-- The sum of the `size` fields of a list of entries, as an exact integer. -/
def sumSizesList (l : List (Sigma (fun _ : String => Value))) : Int :=
  (l.map (fun e => e.2.size)).sum

/-- The sum of the `size` fields of all entries of the map, as an exact integer. -/
def sumSizes (c : AList (fun _ : String => Value)) : Int := sumSizesList c.entries

/-- The accounting invariant: `currentMemorySize` is the `int64` sum of the `size`
fields of the entries of `cacheMap`. -/
def Accounting (m : MemoryCache) : Prop :=
  m.currentMemorySize = wrap64 (sumSizes m.cacheMap)

/-- The size that `Set` records for a value: `int64(util.SizeOfVariable(value))`. -/
def estimatedSize (value : GoVal) : Int := toInt64 (SizeOfVariable value)


/-! ## A value whose size estimate reaches `2 ^ 63` -/

/-- A string of `2 ^ 32` bytes. -/
def hugeString : String := ⟨List.replicate (2 ^ 32) 'a'⟩

/-- A slice of `2 ^ 31` strings of `2 ^ 32` bytes each: `SizeOfVariable` adds up
`2 ^ 63` bytes for it, which `int64` reads as `-2 ^ 63`. -/
def hugeValue : GoVal := .slice (List.replicate (2 ^ 31) (.str hugeString))

/-- The store after `SetMaxMemory("5B")` and `Set("b", "hello", 60)` on a new store. -/
def smallStore : MemoryCache :=
  ((NewMemoryCache.SetMaxMemory asciiTables "5B").2.Set 0 "b" (.str "hello") 60).2

/-- The store after `SetMaxMemory("5B")`, `Set("b", "hello", 60)`,
`Set("a", hugeValue, 60)` and `SetMaxMemory("0B")` on a new store. -/
def overBudgetStore : MemoryCache :=
  ((smallStore.Set 0 "a" hugeValue 60).2.SetMaxMemory asciiTables "0B").2

/-! ## Small stores used as concrete instances -/

/-- A new store after `SetMaxMemory("10MB")`. -/
def tenMBStore : MemoryCache := (NewMemoryCache.SetMaxMemory asciiTables "10MB").2

/-- A new store after `SetMaxMemory("10B")`. -/
def tenByteStore : MemoryCache := (NewMemoryCache.SetMaxMemory asciiTables "10B").2

/-- The store `tenMBStore` after `Set("k", "v", 5)` at clock reading 0: the entry of
`"k"` expires at 5. -/
def boundaryStore : MemoryCache := (tenMBStore.Set 0 "k" (.str "v") 5).2

/-- A sequence of operations without `Set` or `Delete` of `"key1"` and without `Flush`:
sweeper iterations on the entry written by `Set("key1", "value1", 60)` at time 0 and on
another key, a read of `"key1"`, a write of another key and a count. -/
def roundtripOps : List Op :=
  [.sweepEntry 10 ⟨"key1", { value := .str "value1", expire := 60, size := 6 }⟩,
   .Get 20 "key1",
   .Set 5 "key2" (.str "value2") 1,
   .sweepEntry 30 ⟨"key2", { value := .str "value2", expire := 6, size := 6 }⟩,
   .KeyNum]

/-! ## Several `Set` calls in a row -/

/-- The `Set` calls of the list `(now, key, value, expire)`, performed one after the
other: whether all of them returned true, and the store after the last one. -/
def setAll (m : MemoryCache) : List (Int × String × GoVal × Int) → Bool × MemoryCache
  | [] => (true, m)
  | (now, key, value, expire) :: rest =>
    ((m.Set now key value expire).1 && (setAll (m.Set now key value expire).2 rest).1,
     (setAll (m.Set now key value expire).2 rest).2)

/-! ## The entries a sweeper pass finds expired -/

/-- The entries of `l` whose `expire` is before the clock reading of their iteration,
the first iteration having index `i`. -/
def removedFrom (clock : Nat → Int) :
    Nat → List (Sigma (fun _ : String => Value)) → List (Sigma (fun _ : String => Value))
  | _, [] => []
  | i, e :: l =>
    if e.2.expire < clock i then e :: removedFrom clock (i + 1) l
    else removedFrom clock (i + 1) l

/-- The entries that an uninterrupted pass with the clock readings `clock` finds
expired. -/
def removedEntries (m : MemoryCache) (clock : Nat → Int) :
    List (Sigma (fun _ : String => Value)) :=
  removedFrom clock 0 m.cacheMap.entries

/-- The store `tenMBStore` after `Set("b", "x", 7)` and `Set("a", "y", 5)` at clock
reading 0: the scan meets `"a"` (expiring at 5) before `"b"` (expiring at 7). -/
def twoEntryStore : MemoryCache :=
  ((tenMBStore.Set 0 "b" (.str "x") 7).2.Set 0 "a" (.str "y") 5).2

/-- A clock that reads 4 in the first iteration of a pass and 8 in the later ones. -/
def clockFourEight (i : Nat) : Int := if i = 0 then 4 else 8

/-! ## Stores whose byte total leaves the `int64` range -/

/-- A slice of `2 ^ 30` strings of `2 ^ 32` bytes each: an estimate of `2 ^ 62` bytes. -/
def bigValue : GoVal := .slice (List.replicate (2 ^ 30) (.str hugeString))

/-- A new store after `SetMaxMemory("4194304TB")`: a budget of `2 ^ 62` bytes. -/
def hugeBudgetStore : MemoryCache := (NewMemoryCache.SetMaxMemory asciiTables "4194304TB").2

/-- A new store after `SetMaxMemory("4194304TB")` and `Set("a", bigValue, 60)`. -/
def halfFullStore : MemoryCache :=
  run asciiTables NewMemoryCache [.SetMaxMemory "4194304TB", .Set 0 "a" bigValue 60]

/-- A new store after `Set("a", hugeValue, 60)` and `Set("b", hugeValue, 60)`. -/
def doubleHugeStore : MemoryCache :=
  run asciiTables NewMemoryCache [.Set 0 "a" hugeValue 60, .Set 0 "b" hugeValue 60]

/-! ## Size strings of the shape digits, unit -/

/-- The unit names that `ParseSize` knows, in the order of the constants `BYTE`, `KB`,
`MB`, `GB`, `TB`: the unit at index `i` stands for `1024 ^ i` bytes. -/
def unitNames : List String := ["B", "KB", "MB", "GB", "TB"]

/-- The number that a list of decimal digits denotes. -/
def decimalValue (digits : List Char) : Nat :=
  digits.foldl (fun acc c => acc * 10 + (c.toNat - 48)) 0

/-- A non-empty string of the decimal digits `0`..`9`. -/
def IsDigitString (n : String) : Prop := n.data ≠ [] ∧ ∀ c ∈ n.data, c.isDigit = true

/-- The string `u` is `name` up to the case of its (ASCII) letters. -/
def IsCaseVariant (u name : String) : Prop := u.data.map Char.toUpper = name.data

/-! ## Lock and access traces of the methods (cache/memory-cache.go) -/

/-- What a method does to the mutex and to the shared fields, one event per statement:
`m.locker.Lock()`, `m.locker.Unlock()` (deferred or not), a read or a write of
`m.cacheMap`, of `m.currentMemorySize`, and of the budget fields `maxMemorySize` and
`maxMemoryString`. -/
inductive Access where
  | lock
  | unlock
  | readMap
  | writeMap
  | readBytes
  | writeBytes
  | readMax
  | writeMax
  deriving DecidableEq, Repr

namespace MemoryCache

/-- The events of `deleteKey`: the lookup `m.cacheMap[key]`, then, when the key is
present, `delete(m.cacheMap, key)` and `m.currentMemorySize -= value.size`. -/
def deleteKeyTrace (m : MemoryCache) (key : String) : List Access :=
  .readMap :: (match m.cacheMap.lookup key with
    | some _ => [.writeMap, .readBytes, .writeBytes]
    | none => [])

/-- The events of `addKey`: `m.cacheMap[key] = value`, `m.currentMemorySize += value.size`. -/
def addKeyTrace : List Access := [.writeMap, .readBytes, .writeBytes]

/-- The events of `SetMaxMemory`: the assignment of `maxMemorySize` and
`maxMemoryString`; the method does not take the lock. -/
def SetMaxMemoryTrace : List Access := [.writeMax, .writeMax]

/-- The events of `Set`: lock, the admission test, then either the log line and the
return, or `deleteKey` and `addKey`; the deferred unlock comes last. -/
def SetTrace (m : MemoryCache) (key : String) (value : GoVal) : List Access :=
  [.lock, .readBytes, .readMax]
    ++ (if wrap64 (toInt64 (SizeOfVariable value) + m.currentMemorySize) > m.maxMemorySize
        then [.readMax]
        else m.deleteKeyTrace key ++ addKeyTrace)
    ++ [.unlock]

/-- The events of `Get`: lock, the lookup, `deleteKey` when the entry has expired, and
the deferred unlock. -/
def GetTrace (m : MemoryCache) (now : Int) (key : String) : List Access :=
  [.lock, .readMap]
    ++ (match m.cacheMap.lookup key with
        | none => []
        | some value => if value.expire < now then m.deleteKeyTrace key else [])
    ++ [.unlock]

/-- The events of `Delete`. -/
def DeleteTrace (m : MemoryCache) (key : String) : List Access :=
  [.lock] ++ m.deleteKeyTrace key ++ [.unlock]

/-- The events of `Exists`. -/
def ExistsTrace : List Access := [.lock, .readMap, .unlock]

/-- The events of `Flush`. -/
def FlushTrace : List Access := [.lock, .writeMap, .writeBytes, .unlock]

/-- The events of `KeyNum`. -/
def KeyNumTrace : List Access := [.lock, .readMap, .unlock]

/-- The events of the body of the range loop of `clearExpireCache` for one entry: the
range statement reads the map, and only when the entry has expired the lock is taken
around `deleteKey`. -/
def sweepEntryTrace (now : Int) (m : MemoryCache) (e : Sigma (fun _ : String => Value)) :
    List Access :=
  .readMap :: (if e.2.expire < now then [.lock] ++ m.deleteKeyTrace e.1 ++ [.unlock] else [])

/-- The events of one pass of `clearExpireCache` over the entries `l`, the store
changing as the pass goes. -/
def sweepTrace (now : Int) : MemoryCache → List (Sigma (fun _ : String => Value)) → List Access
  | _, [] => []
  | m, e :: l => sweepEntryTrace now m e ++ sweepTrace now (sweepEntry now m e) l

/-- The events of one pass of `clearExpireCache`. -/
def clearExpireCacheTrace (m : MemoryCache) (now : Int) : List Access :=
  sweepTrace now m m.cacheMap.entries

end MemoryCache

/-- Whether every read and write of the map and of the byte counter in the trace
happens while the lock is held; `held` tells whether it is held at the start. -/
def lockedAccesses : Bool → List Access → Bool
  | _, [] => true
  | _, .lock :: rest => lockedAccesses true rest
  | _, .unlock :: rest => lockedAccesses false rest
  | held, .readMax :: rest => lockedAccesses held rest
  | held, .writeMax :: rest => lockedAccesses held rest
  | held, .readMap :: rest => held && lockedAccesses held rest
  | held, .writeMap :: rest => held && lockedAccesses held rest
  | held, .readBytes :: rest => held && lockedAccesses held rest
  | held, .writeBytes :: rest => held && lockedAccesses held rest

/-! # Theorems -/

/-! ## Arithmetic of `wrap64` -/

theorem wrap64_inInt64 (x : Int) : InInt64 (wrap64 x) := by
  unfold InInt64 wrap64
  constructor <;> omega

theorem wrap64_of_inInt64 {x : Int} (h : InInt64 x) : wrap64 x = x := by
  unfold InInt64 at h
  unfold wrap64
  omega

theorem wrap64_add_wrap64 (a b : Int) : wrap64 (wrap64 a + b) = wrap64 (a + b) := by
  unfold wrap64
  omega

theorem wrap64_sub_wrap64 (a b : Int) : wrap64 (wrap64 a - b) = wrap64 (a - b) := by
  unfold wrap64
  omega

theorem toInt64_inInt64 (n : Nat) : InInt64 (toInt64 n) := by
  unfold InInt64 toInt64
  split <;> constructor <;> omega

theorem estimatedSize_inInt64 (v : GoVal) : InInt64 (estimatedSize v) :=
  toInt64_inInt64 _

/-! ## The byte total of a map -/

theorem sumSizesList_kerase (k : String) (v : Value) :
    ∀ l : List (Sigma (fun _ : String => Value)), l.dlookup k = some v →
      sumSizesList l = v.size + sumSizesList (l.kerase k)
  | [], h => by simp at h
  | ⟨a, b⟩ :: l, h => by
    by_cases hk : a = k
    · subst hk
      rw [List.dlookup_cons_eq] at h
      have he : List.kerase a (⟨a, b⟩ :: l) = l := List.kerase_cons_eq rfl
      rw [he]
      cases h
      simp [sumSizesList]
    · rw [List.dlookup_cons_ne _ _ (Ne.symm hk)] at h
      have he : List.kerase k (⟨a, b⟩ :: l) = ⟨a, b⟩ :: List.kerase k l :=
        List.kerase_cons_ne (Ne.symm hk)
      rw [he]
      have ih := sumSizesList_kerase k v l h
      simp only [sumSizesList, List.map_cons, List.sum_cons] at ih ⊢
      omega

theorem sumSizes_erase {c : AList (fun _ : String => Value)} {k : String} {v : Value}
    (h : c.lookup k = some v) : sumSizes c = v.size + sumSizes (c.erase k) :=
  sumSizesList_kerase k v c.entries h

theorem sumSizes_insert_of_not_mem {c : AList (fun _ : String => Value)} {k : String}
    (v : Value) (h : k ∉ c) : sumSizes (c.insert k v) = v.size + sumSizes c := by
  unfold sumSizes
  rw [AList.insert_entries_of_neg h]
  simp [sumSizesList]

/-! ## Effect of the store operations on the map -/

namespace MemoryCache

theorem deleteKey_of_lookup_some {m : MemoryCache} {key : String} {v : Value}
    (h : m.cacheMap.lookup key = some v) :
    m.deleteKey key = (true, { m with
      cacheMap := m.cacheMap.erase key
      currentMemorySize := wrap64 (m.currentMemorySize - v.size) }) := by
  simp [deleteKey, h]

theorem deleteKey_of_lookup_none {m : MemoryCache} {key : String}
    (h : m.cacheMap.lookup key = none) : m.deleteKey key = (false, m) := by
  simp [deleteKey, h]

theorem deleteKey_cacheMap (m : MemoryCache) (key : String) :
    (m.deleteKey key).2.cacheMap = m.cacheMap.erase key := by
  cases h : m.cacheMap.lookup key with
  | some v => rw [deleteKey_of_lookup_some h]
  | none =>
    rw [deleteKey_of_lookup_none h]
    apply AList.ext
    have hk : key ∉ m.cacheMap.entries.keys := AList.lookup_eq_none.mp h
    exact (List.kerase_of_not_mem_keys hk).symm

theorem deleteKey_maxMemorySize (m : MemoryCache) (key : String) :
    (m.deleteKey key).2.maxMemorySize = m.maxMemorySize := by
  unfold deleteKey; split <;> rfl

theorem deleteKey_maxMemoryString (m : MemoryCache) (key : String) :
    (m.deleteKey key).2.maxMemoryString = m.maxMemoryString := by
  unfold deleteKey; split <;> rfl

theorem lookup_deleteKey (m : MemoryCache) (key k : String) :
    (m.deleteKey key).2.cacheMap.lookup k = if k = key then none else m.cacheMap.lookup k := by
  rw [deleteKey_cacheMap]
  by_cases h : k = key
  · subst h; simp
  · simp [h, AList.lookup_erase_ne h]

theorem not_mem_deleteKey (m : MemoryCache) (key : String) :
    key ∉ (m.deleteKey key).2.cacheMap := by
  rw [deleteKey_cacheMap, AList.mem_erase]
  simp

theorem accounting_deleteKey {m : MemoryCache} (h : Accounting m) (key : String) :
    Accounting (m.deleteKey key).2 := by
  unfold Accounting at h ⊢
  cases hl : m.cacheMap.lookup key with
  | some v =>
    rw [deleteKey_of_lookup_some hl]
    show wrap64 (m.currentMemorySize - v.size) = wrap64 (sumSizes (m.cacheMap.erase key))
    rw [h, wrap64_sub_wrap64, sumSizes_erase hl]
    congr 1
    omega
  | none => rw [deleteKey_of_lookup_none hl]; exact h

theorem accounting_addKey {m : MemoryCache} (h : Accounting m) {key : String}
    (hk : key ∉ m.cacheMap) (v : Value) : Accounting (m.addKey key v) := by
  unfold Accounting at h ⊢
  show wrap64 (m.currentMemorySize + v.size) = wrap64 (sumSizes (m.cacheMap.insert key v))
  rw [h, wrap64_add_wrap64, sumSizes_insert_of_not_mem v hk]
  congr 1
  omega

theorem accounting_SetMaxMemory {m : MemoryCache} (h : Accounting m) (U : UnicodeTables)
    (size : String) : Accounting (m.SetMaxMemory U size).2 := by
  simp only [SetMaxMemory]
  split <;> exact h

theorem accounting_Set {m : MemoryCache} (h : Accounting m) (now : Int) (key : String)
    (value : GoVal) (expire : Int) : Accounting (m.Set now key value expire).2 := by
  simp only [MemoryCache.Set]
  split_ifs
  · exact h
  · exact accounting_addKey (accounting_deleteKey h key) (not_mem_deleteKey m key) _

theorem accounting_Get {m : MemoryCache} (h : Accounting m) (now : Int) (key : String) :
    Accounting (m.Get now key).2 := by
  unfold Get
  split
  · exact h
  · split
    · exact accounting_deleteKey h key
    · exact h

theorem accounting_Flush (m : MemoryCache) : Accounting m.Flush.2 := by
  show (0 : Int) = wrap64 (sumSizes ∅)
  decide

theorem accounting_sweepEntry {m : MemoryCache} (h : Accounting m) (now : Int)
    (e : Sigma (fun _ : String => Value)) : Accounting (sweepEntry now m e) := by
  unfold sweepEntry
  split
  · exact accounting_deleteKey h e.1
  · exact h

theorem accounting_sweepFrom (clock : Nat → Int) :
    ∀ (l : List (Sigma (fun _ : String => Value))) (i : Nat) (m : MemoryCache),
      Accounting m → Accounting (sweepFrom clock i m l)
  | [], _, _, h => h
  | e :: l, i, _, h =>
    accounting_sweepFrom clock l (i + 1) _ (accounting_sweepEntry h (clock i) e)

theorem accounting_clearExpireCache {m : MemoryCache} (h : Accounting m)
    (clock : Nat → Int) : Accounting (m.clearExpireCache clock) :=
  accounting_sweepFrom clock _ 0 m h

end MemoryCache

theorem accounting_step {m : MemoryCache} (h : Accounting m) (U : UnicodeTables) (op : Op) :
    Accounting (step U m op) := by
  cases op with
  | SetMaxMemory size => exact MemoryCache.accounting_SetMaxMemory h U size
  | Set now key value expire => exact MemoryCache.accounting_Set h now key value expire
  | Get now key => exact MemoryCache.accounting_Get h now key
  | Delete key => exact MemoryCache.accounting_deleteKey h key
  | Exists key => exact h
  | Flush => exact MemoryCache.accounting_Flush m
  | KeyNum => exact h
  | sweepEntry now e => exact MemoryCache.accounting_sweepEntry h now e

theorem accounting_run (U : UnicodeTables) :
    ∀ (ops : List Op) (m : MemoryCache), Accounting m → Accounting (run U m ops)
  | [], _, h => h
  | op :: ops, m, h => by
    simp only [run, List.foldl_cons]
    exact accounting_run U ops _ (accounting_step h U op)

namespace MemoryCache

theorem Set_of_reject {m : MemoryCache} {now : Int} {key : String} {value : GoVal}
    {expire : Int} (h : wrap64 (estimatedSize value + m.currentMemorySize) > m.maxMemorySize) :
    m.Set now key value expire = (false, m) := by
  simp only [MemoryCache.Set]
  exact if_pos h

theorem Set_of_accept {m : MemoryCache} {now : Int} {key : String} {value : GoVal}
    {expire : Int}
    (h : ¬ wrap64 (estimatedSize value + m.currentMemorySize) > m.maxMemorySize) :
    m.Set now key value expire
      = (true, ((m.deleteKey key).2).addKey key
          { value := value, expire := now + expire, size := estimatedSize value }) := by
  simp only [MemoryCache.Set]
  exact if_neg h

theorem Set_fst_eq_false_iff (m : MemoryCache) (now : Int) (key : String) (value : GoVal)
    (expire : Int) :
    (m.Set now key value expire).1 = false
      ↔ wrap64 (estimatedSize value + m.currentMemorySize) > m.maxMemorySize := by
  by_cases h : wrap64 (estimatedSize value + m.currentMemorySize) > m.maxMemorySize
  · rw [Set_of_reject h]; simp [h]
  · rw [Set_of_accept h]; simp [h]

theorem Set_fst_eq_true_iff (m : MemoryCache) (now : Int) (key : String) (value : GoVal)
    (expire : Int) :
    (m.Set now key value expire).1 = true
      ↔ ¬ wrap64 (estimatedSize value + m.currentMemorySize) > m.maxMemorySize := by
  by_cases h : wrap64 (estimatedSize value + m.currentMemorySize) > m.maxMemorySize
  · rw [Set_of_reject h]; simp [h]
  · rw [Set_of_accept h]; simp [h]

end MemoryCache

/-! ## `ParseSize` on ASCII text does not depend on the tables -/

theorem splitSize_ascii (U : UnicodeTables) :
    ∀ (l : List Char) (n u : String), (∀ c ∈ l, c.toNat < 128) →
      splitSize U n u l = splitSize asciiTables n u l
  | [], _, _, _ => rfl
  | c :: l, n, u, h => by
    have hc : c.toNat < 128 := h c (List.mem_cons_self c l)
    have hl : ∀ d ∈ l, d.toNat < 128 := fun d hd => h d (List.mem_cons_of_mem c hd)
    have hd : U.IsDigit c = asciiTables.IsDigit c := U.isDigit_ascii c hc
    have hle : U.IsLetter c = asciiTables.IsLetter c := U.isLetter_ascii c hc
    simp only [splitSize, hd, hle]
    split
    · exact splitSize_ascii U l _ _ hl
    · split
      · exact splitSize_ascii U l _ _ hl
      · exact splitSize_ascii U l _ _ hl

theorem splitSize_snd_mem (T : UnicodeTables) :
    ∀ (l : List Char) (n u : String) (c : Char),
      c ∈ (splitSize T n u l).2.data → c ∈ u.data ∨ c ∈ l
  | [], _, _, _, h => Or.inl h
  | d :: l, n, u, c, h => by
    simp only [splitSize] at h
    split at h
    · rcases splitSize_snd_mem T l _ _ c h with h1 | h1
      · exact Or.inl h1
      · exact Or.inr (List.mem_cons_of_mem d h1)
    · split at h
      · rcases splitSize_snd_mem T l _ _ c h with h1 | h1
        · simp only [String.push, List.mem_append, List.mem_singleton] at h1
          rcases h1 with h2 | h2
          · exact Or.inl h2
          · exact Or.inr (h2 ▸ List.mem_cons_self d l)
        · exact Or.inr (List.mem_cons_of_mem d h1)
      · rcases splitSize_snd_mem T l _ _ c h with h1 | h1
        · exact Or.inl h1
        · exact Or.inr (List.mem_cons_of_mem d h1)

theorem stringsToUpper_ascii (U : UnicodeTables) (s : String)
    (h : ∀ c ∈ s.data, c.toNat < 128) : stringsToUpper U s = stringsToUpper asciiTables s := by
  unfold stringsToUpper
  congr 1
  apply List.map_congr_left
  intro c hc
  exact U.toUpper_ascii c (h c hc)

/-- On a size string made of ASCII characters only, `ParseSize` gives the same result
for every choice of the Unicode tables. -/
theorem ParseSize_ascii (U : UnicodeTables) (size : String)
    (h : ∀ c ∈ size.data, c.toNat < 128) : ParseSize U size = ParseSize asciiTables size := by
  have hs : splitSize U "" "" size.data = splitSize asciiTables "" "" size.data :=
    splitSize_ascii U size.data "" "" h
  have hu : ∀ c ∈ (splitSize asciiTables "" "" size.data).2.data, c.toNat < 128 := by
    intro c hc
    rcases splitSize_snd_mem asciiTables size.data "" "" c hc with h1 | h1
    · simp at h1
    · exact h c h1
  simp only [ParseSize, hs, stringsToUpper_ascii U _ hu]

theorem SetMaxMemory_ascii (U : UnicodeTables) (m : MemoryCache) (size : String)
    (h : ∀ c ∈ size.data, c.toNat < 128) :
    m.SetMaxMemory U size = m.SetMaxMemory asciiTables size := by
  simp only [MemoryCache.SetMaxMemory, ParseSize_ascii U size h]

/-! ## Bounds on the byte total -/

theorem sumSizesList_nonneg :
    ∀ l : List (Sigma (fun _ : String => Value)), (∀ e ∈ l, 0 ≤ e.2.size) →
      0 ≤ sumSizesList l
  | [], _ => by simp [sumSizesList]
  | e :: l, h => by
    have h1 : 0 ≤ e.2.size := h e (List.mem_cons_self e l)
    have h2 : 0 ≤ sumSizesList l :=
      sumSizesList_nonneg l (fun d hd => h d (List.mem_cons_of_mem e hd))
    simp only [sumSizesList, List.map_cons, List.sum_cons] at h2 ⊢
    omega

theorem size_le_sumSizes {c : AList (fun _ : String => Value)} {k : String} {v : Value}
    (hnn : ∀ e ∈ c.entries, 0 ≤ e.2.size) (h : c.lookup k = some v) :
    0 ≤ v.size ∧ v.size ≤ sumSizes c := by
  have hmem : (⟨k, v⟩ : Sigma (fun _ : String => Value)) ∈ c.entries :=
    AList.mem_lookup_iff.mp h
  have hv : 0 ≤ v.size := hnn ⟨k, v⟩ hmem
  have hrest : 0 ≤ sumSizes (c.erase k) := by
    apply sumSizesList_nonneg
    intro e he
    exact hnn e ((List.kerase_sublist k c.entries).subset he)
  have hsum := sumSizes_erase h
  omega

/-! ## `SizeOfVariable` as a sum modulo `2 ^ 64` -/

theorem sumElems_mod (l : List GoVal) :
    ∀ acc : Nat, sumElems acc l % 2 ^ 64 = (acc + (l.map calculateSize).sum) % 2 ^ 64 := by
  induction l with
  | nil => intro acc; simp [sumElems]
  | cons x l ih =>
    intro acc
    rw [sumElems, ih]
    simp only [wrapU64, List.map_cons, List.sum_cons]
    omega

theorem sumElems_lt (l : List GoVal) :
    ∀ acc : Nat, acc < 2 ^ 64 → sumElems acc l < 2 ^ 64 := by
  induction l with
  | nil => intro acc h; simpa [sumElems] using h
  | cons x l ih =>
    intro acc _
    rw [sumElems]
    apply ih
    unfold wrapU64
    omega

theorem sumElems_zero (l : List GoVal) :
    sumElems 0 l = (l.map calculateSize).sum % 2 ^ 64 := by
  have h1 := sumElems_mod l 0
  have h2 := sumElems_lt l 0 (by norm_num)
  rw [Nat.mod_eq_of_lt h2] at h1
  simpa using h1

theorem utf8ByteSize_replicate_a (n : Nat) :
    (String.mk (List.replicate n 'a')).utf8ByteSize = n := by
  induction n with
  | zero => rfl
  | succ n ih =>
    have h : String.utf8ByteSize.go ('a' :: List.replicate n 'a')
        = String.utf8ByteSize.go (List.replicate n 'a') + 1 := rfl
    have ih2 : String.utf8ByteSize.go (List.replicate n 'a') = n := ih
    show String.utf8ByteSize.go (List.replicate (n + 1) 'a') = n + 1
    rw [List.replicate_succ, h, ih2]

theorem calculateSize_hugeString : calculateSize (.str hugeString) = 2 ^ 32 := by
  rw [calculateSize, hugeString, utf8ByteSize_replicate_a]

theorem sum_map_replicate (f : GoVal → Nat) (x : GoVal) (n : Nat) :
    ((List.replicate n x).map f).sum = n * f x := by
  induction n with
  | zero => simp
  | succ n ih =>
    rw [List.replicate_succ, List.map_cons, List.sum_cons, ih]
    ring

theorem sum_replicate_hugeString :
    ((List.replicate (2 ^ 31) (GoVal.str hugeString)).map calculateSize).sum % 2 ^ 64
      = 2 ^ 63 := by
  rw [sum_map_replicate, calculateSize_hugeString]
  norm_num

theorem SizeOfVariable_hugeValue : SizeOfVariable hugeValue = 2 ^ 63 := by
  rw [SizeOfVariable, hugeValue, calculateSize, sumElems_zero, sum_replicate_hugeString]

theorem estimatedSize_hugeValue : estimatedSize hugeValue = -(2 ^ 63) := by
  rw [estimatedSize, SizeOfVariable_hugeValue]
  simp [toInt64]

/-! ## Fields after `SetMaxMemory` and `addKey` -/

namespace MemoryCache

theorem SetMaxMemory_currentMemorySize (U : UnicodeTables) (m : MemoryCache) (size : String) :
    (m.SetMaxMemory U size).2.currentMemorySize = m.currentMemorySize := by
  simp only [SetMaxMemory]
  split <;> rfl

theorem SetMaxMemory_cacheMap (U : UnicodeTables) (m : MemoryCache) (size : String) :
    (m.SetMaxMemory U size).2.cacheMap = m.cacheMap := by
  simp only [SetMaxMemory]
  split <;> rfl

theorem SetMaxMemory_maxMemorySize (U : UnicodeTables) (m : MemoryCache) (size : String) :
    (m.SetMaxMemory U size).2.maxMemorySize = (ParseSize U size).1 := by
  simp only [SetMaxMemory]
  split <;> rfl

theorem SetMaxMemory_maxMemoryString (U : UnicodeTables) (m : MemoryCache) (size : String) :
    (m.SetMaxMemory U size).2.maxMemoryString = (ParseSize U size).2.1 := by
  simp only [SetMaxMemory]
  split <;> rfl

theorem SetMaxMemory_fst (U : UnicodeTables) (m : MemoryCache) (size : String) :
    (m.SetMaxMemory U size).1 = (ParseSize U size).2.2.isNone := by
  simp only [SetMaxMemory]
  split <;> simp [*]

theorem Set_maxMemorySize (m : MemoryCache) (now : Int) (key : String) (value : GoVal)
    (expire : Int) : (m.Set now key value expire).2.maxMemorySize = m.maxMemorySize := by
  by_cases h : wrap64 (estimatedSize value + m.currentMemorySize) > m.maxMemorySize
  · rw [Set_of_reject h]
  · rw [Set_of_accept h]
    exact deleteKey_maxMemorySize m key

theorem Set_maxMemoryString (m : MemoryCache) (now : Int) (key : String) (value : GoVal)
    (expire : Int) : (m.Set now key value expire).2.maxMemoryString = m.maxMemoryString := by
  by_cases h : wrap64 (estimatedSize value + m.currentMemorySize) > m.maxMemorySize
  · rw [Set_of_reject h]
  · rw [Set_of_accept h]
    exact deleteKey_maxMemoryString m key

/-- The byte counter after an admitted `Set`: the old entry's size is subtracted when
the key was present, then the new size is added. -/
theorem Set_currentMemorySize_of_accept {m : MemoryCache} {now : Int} {key : String}
    {value : GoVal} {expire : Int}
    (h : ¬ wrap64 (estimatedSize value + m.currentMemorySize) > m.maxMemorySize) :
    (m.Set now key value expire).2.currentMemorySize
      = match m.cacheMap.lookup key with
        | some old => wrap64 (wrap64 (m.currentMemorySize - old.size) + estimatedSize value)
        | none => wrap64 (m.currentMemorySize + estimatedSize value) := by
  rw [Set_of_accept h]
  cases hl : m.cacheMap.lookup key with
  | some old => rw [deleteKey_of_lookup_some hl]; rfl
  | none => rw [deleteKey_of_lookup_none hl]; rfl

theorem Set_cacheMap_of_accept {m : MemoryCache} {now : Int} {key : String}
    {value : GoVal} {expire : Int}
    (h : ¬ wrap64 (estimatedSize value + m.currentMemorySize) > m.maxMemorySize) :
    (m.Set now key value expire).2.cacheMap
      = (m.cacheMap.erase key).insert key
          { value := value, expire := now + expire, size := estimatedSize value } := by
  rw [Set_of_accept h]
  show ((m.deleteKey key).2.cacheMap).insert key _ = _
  rw [deleteKey_cacheMap]

end MemoryCache

/-! ## The store `overBudgetStore` -/

theorem overBudgetStore_fields :
    overBudgetStore.maxMemorySize = 0
      ∧ overBudgetStore.currentMemorySize = -(2 ^ 63) + 5
      ∧ overBudgetStore.cacheMap.lookup "a"
          = some { value := hugeValue, expire := 0 + 60, size := -(2 ^ 63) } := by
  have hcur2 : smallStore.currentMemorySize = 5 := by decide
  have hmax2 : smallStore.maxMemorySize = 5 := by decide
  have hlk2 : smallStore.cacheMap.lookup "a" = none := by rfl
  have hadm : ¬ wrap64 (estimatedSize hugeValue
      + smallStore.currentMemorySize)
      > smallStore.maxMemorySize := by
    rw [estimatedSize_hugeValue, hcur2, hmax2]
    decide
  rw [overBudgetStore]
  refine ⟨?_, ?_, ?_⟩
  · rw [MemoryCache.SetMaxMemory_maxMemorySize]
    decide
  · rw [MemoryCache.SetMaxMemory_currentMemorySize,
      MemoryCache.Set_currentMemorySize_of_accept hadm, hlk2, hcur2, estimatedSize_hugeValue]
    decide
  · rw [MemoryCache.SetMaxMemory_cacheMap, MemoryCache.Set_cacheMap_of_accept hadm,
      AList.lookup_insert, estimatedSize_hugeValue]

theorem accounting_NewMemoryCache : Accounting NewMemoryCache := by
  show (0 : Int) = wrap64 (sumSizes ∅)
  decide

theorem accounting_smallStore : Accounting smallStore :=
  MemoryCache.accounting_Set
    (MemoryCache.accounting_SetMaxMemory accounting_NewMemoryCache asciiTables "5B") 0 "b"
    (.str "hello") 60

theorem accounting_overBudgetStore : Accounting overBudgetStore :=
  MemoryCache.accounting_SetMaxMemory
    (MemoryCache.accounting_Set accounting_smallStore 0 "a" hugeValue 60) asciiTables "0B"

theorem run_nil (U : UnicodeTables) (m : MemoryCache) : run U m [] = m := rfl

theorem run_cons (U : UnicodeTables) (m : MemoryCache) (op : Op) (ops : List Op) :
    run U m (op :: ops) = run U (step U m op) ops := rfl

theorem step_Set (U : UnicodeTables) (m : MemoryCache) (now : Int) (key : String)
    (value : GoVal) (expire : Int) :
    step U m (.Set now key value expire) = (m.Set now key value expire).2 := rfl

theorem step_SetMaxMemory (U : UnicodeTables) (m : MemoryCache) (size : String) :
    step U m (.SetMaxMemory size) = (m.SetMaxMemory U size).2 := rfl

theorem step_sweepEntry (U : UnicodeTables) (m : MemoryCache) (now : Int)
    (e : Sigma (fun _ : String => Value)) :
    step U m (.sweepEntry now e) = MemoryCache.sweepEntry now m e := rfl

/-! ## Stores whose byte total leaves the `int64` range -/

theorem SizeOfVariable_bigValue : SizeOfVariable bigValue = 2 ^ 62 := by
  rw [SizeOfVariable, bigValue, calculateSize, sumElems_zero, sum_map_replicate,
    calculateSize_hugeString]
  norm_num

theorem estimatedSize_bigValue : estimatedSize bigValue = 2 ^ 62 := by
  rw [estimatedSize, SizeOfVariable_bigValue]
  simp [toInt64]

namespace MemoryCache

/-- An accepted `Set` of a key without an entry adds the size of the new entry to the
exact byte total. -/
theorem sumSizes_Set_of_fresh {m : MemoryCache} {now : Int} {key : String} {value : GoVal}
    {expire : Int}
    (h : ¬ wrap64 (estimatedSize value + m.currentMemorySize) > m.maxMemorySize)
    (hl : m.cacheMap.lookup key = none) :
    sumSizes (m.Set now key value expire).2.cacheMap
      = estimatedSize value + sumSizes m.cacheMap := by
  have hk : key ∉ m.cacheMap := AList.lookup_eq_none.mp hl
  have he : m.cacheMap.erase key = m.cacheMap := by
    rw [← deleteKey_cacheMap, deleteKey_of_lookup_none hl]
  rw [Set_cacheMap_of_accept h, he, sumSizes_insert_of_not_mem _ hk]

theorem Set_currentMemorySize_of_fresh {m : MemoryCache} {now : Int} {key : String}
    {value : GoVal} {expire : Int}
    (h : ¬ wrap64 (estimatedSize value + m.currentMemorySize) > m.maxMemorySize)
    (hl : m.cacheMap.lookup key = none) :
    (m.Set now key value expire).2.currentMemorySize
      = wrap64 (m.currentMemorySize + estimatedSize value) := by
  rw [Set_currentMemorySize_of_accept h, hl]

theorem lookup_Set_ne (m : MemoryCache) (now : Int) {key k : String} (value : GoVal)
    (expire : Int) (hk : k ≠ key) :
    (m.Set now key value expire).2.cacheMap.lookup k = m.cacheMap.lookup k := by
  by_cases h : wrap64 (estimatedSize value + m.currentMemorySize) > m.maxMemorySize
  · rw [Set_of_reject h]
  · rw [Set_cacheMap_of_accept h, AList.lookup_insert_ne hk, AList.lookup_erase_ne hk]

end MemoryCache

theorem doubleHugeStore_eq :
    doubleHugeStore = ((NewMemoryCache.Set 0 "a" hugeValue 60).2.Set 0 "b" hugeValue 60).2 := by
  unfold doubleHugeStore
  rw [run_cons, run_cons, run_nil, step_Set, step_Set]

theorem halfFullStore_eq :
    halfFullStore = (hugeBudgetStore.Set 0 "a" bigValue 60).2 := by
  unfold halfFullStore hugeBudgetStore
  rw [run_cons, run_cons, run_nil, step_SetMaxMemory, step_Set]

theorem hugeBudgetStore_fields :
    hugeBudgetStore.maxMemorySize = 2 ^ 62 ∧ hugeBudgetStore.currentMemorySize = 0
      ∧ hugeBudgetStore.cacheMap.lookup "a" = none
      ∧ hugeBudgetStore.cacheMap.lookup "b" = none :=
  ⟨by decide, by decide, rfl, rfl⟩

theorem halfFullStore_fields :
    halfFullStore.maxMemorySize = 2 ^ 62 ∧ halfFullStore.currentMemorySize = 2 ^ 62
      ∧ sumSizes halfFullStore.cacheMap = 2 ^ 62
      ∧ halfFullStore.cacheMap.lookup "b" = none := by
  obtain ⟨hmax, hcur, hla, hlb⟩ := hugeBudgetStore_fields
  have hs0 : sumSizes hugeBudgetStore.cacheMap = 0 := by decide
  have hadm : ¬ wrap64 (estimatedSize bigValue + hugeBudgetStore.currentMemorySize)
      > hugeBudgetStore.maxMemorySize := by
    rw [estimatedSize_bigValue, hcur, hmax]
    decide
  rw [halfFullStore_eq]
  refine ⟨?_, ?_, ?_, ?_⟩
  · rw [MemoryCache.Set_maxMemorySize, hmax]
  · rw [MemoryCache.Set_currentMemorySize_of_fresh hadm hla, hcur, estimatedSize_bigValue]
    decide
  · rw [MemoryCache.sumSizes_Set_of_fresh hadm hla, hs0, estimatedSize_bigValue]
    decide
  · rw [MemoryCache.lookup_Set_ne _ _ _ _ (by decide), hlb]

/-! ## C1 -/

/-- C1, counterexample.  On a new store, `Set("a", hugeValue, 60)` and
`Set("b", hugeValue, 60)` both return true, each entry carrying the size `-2 ^ 63`, the
`int64` reading of an estimate of `2 ^ 63` bytes.  In the store reached,
`currentMemorySize` is 0 while the sizes of the two entries sum to `-2 ^ 64`. -/
theorem accounting_overflow_counterexample :
    (NewMemoryCache.Set 0 "a" hugeValue 60).1 = true
      ∧ ((NewMemoryCache.Set 0 "a" hugeValue 60).2.Set 0 "b" hugeValue 60).1 = true
      ∧ doubleHugeStore.currentMemorySize = 0
      ∧ sumSizes doubleHugeStore.cacheMap = -(2 ^ 64)
      ∧ doubleHugeStore.currentMemorySize ≠ sumSizes doubleHugeStore.cacheMap := by
  have hl1 : NewMemoryCache.cacheMap.lookup "a" = none := rfl
  have hlb : NewMemoryCache.cacheMap.lookup "b" = none := rfl
  have hc0 : NewMemoryCache.currentMemorySize = 0 := rfl
  have hm0 : NewMemoryCache.maxMemorySize = 0 := rfl
  have hs0 : sumSizes NewMemoryCache.cacheMap = 0 := by decide
  have hadm1 : ¬ wrap64 (estimatedSize hugeValue + NewMemoryCache.currentMemorySize)
      > NewMemoryCache.maxMemorySize := by
    rw [estimatedSize_hugeValue, hc0, hm0]
    decide
  have hc1 : (NewMemoryCache.Set 0 "a" hugeValue 60).2.currentMemorySize = -(2 ^ 63) := by
    rw [MemoryCache.Set_currentMemorySize_of_fresh hadm1 hl1, hc0, estimatedSize_hugeValue]
    decide
  have hm1 : (NewMemoryCache.Set 0 "a" hugeValue 60).2.maxMemorySize = 0 := by
    rw [MemoryCache.Set_maxMemorySize, hm0]
  have hs1 : sumSizes (NewMemoryCache.Set 0 "a" hugeValue 60).2.cacheMap = -(2 ^ 63) := by
    rw [MemoryCache.sumSizes_Set_of_fresh hadm1 hl1, hs0, estimatedSize_hugeValue]
    decide
  have hl2 : (NewMemoryCache.Set 0 "a" hugeValue 60).2.cacheMap.lookup "b" = none := by
    rw [MemoryCache.lookup_Set_ne _ _ _ _ (by decide), hlb]
  have hadm2 : ¬ wrap64 (estimatedSize hugeValue
      + (NewMemoryCache.Set 0 "a" hugeValue 60).2.currentMemorySize)
      > (NewMemoryCache.Set 0 "a" hugeValue 60).2.maxMemorySize := by
    rw [estimatedSize_hugeValue, hc1, hm1]
    decide
  have hc2 : doubleHugeStore.currentMemorySize = 0 := by
    rw [doubleHugeStore_eq, MemoryCache.Set_currentMemorySize_of_fresh hadm2 hl2, hc1,
      estimatedSize_hugeValue]
    decide
  have hs2 : sumSizes doubleHugeStore.cacheMap = -(2 ^ 64) := by
    rw [doubleHugeStore_eq, MemoryCache.sumSizes_Set_of_fresh hadm2 hl2, hs1,
      estimatedSize_hugeValue]
    decide
  refine ⟨(MemoryCache.Set_fst_eq_true_iff _ _ _ _ _).mpr hadm1,
    (MemoryCache.Set_fst_eq_true_iff _ _ _ _ _).mpr hadm2, hc2, hs2, ?_⟩
  rw [hc2, hs2]
  decide

/-- C1, amended (accounting invariant).  In every store reached from `NewMemoryCache`
by any sequence of `SetMaxMemory`, `Set`, `Get`, `Delete`, `Exists`, `Flush`, `KeyNum`
calls and iterations of sweeper passes, each on any entry, at arbitrary clock readings,
`currentMemorySize` equals the `int64` (wrap-around) sum of the `size` fields of all
entries in `cacheMap`, expired ones included; it equals their exact sum whenever that
sum fits into an `int64`. -/
theorem accounting_reachable (U : UnicodeTables) (ops : List Op) :
    (run U NewMemoryCache ops).currentMemorySize
        = wrap64 (sumSizes (run U NewMemoryCache ops).cacheMap)
      ∧ (InInt64 (sumSizes (run U NewMemoryCache ops).cacheMap) →
          (run U NewMemoryCache ops).currentMemorySize
            = sumSizes (run U NewMemoryCache ops).cacheMap) := by
  have h : Accounting (run U NewMemoryCache ops) :=
    accounting_run U ops _ accounting_NewMemoryCache
  refine ⟨h, fun hr => ?_⟩
  rw [h, wrap64_of_inInt64 hr]

/-! ## C2 -/

/-- C2, counterexample.  `overBudgetStore` is reached through the public methods and
satisfies the accounting invariant, its budget is 0 bytes, and `Set("a", "", 60)`
on it returns true and leaves `currentMemorySize = 5 > 0 = maxMemorySize`: the entry
replaced under `"a"` carries the size `-2 ^ 63`, the `int64` reading of an estimate of
`2 ^ 63` bytes. -/
theorem set_over_budget_counterexample :
    Accounting overBudgetStore
      ∧ (overBudgetStore.Set 0 "a" (.str "") 60).1 = true
      ∧ ¬ ((overBudgetStore.Set 0 "a" (.str "") 60).2.currentMemorySize
            ≤ (overBudgetStore.Set 0 "a" (.str "") 60).2.maxMemorySize) := by
  obtain ⟨hmax, hcur, hlk⟩ := overBudgetStore_fields
  have hest : estimatedSize (.str "") = 0 := by decide
  have hadm : ¬ wrap64 (estimatedSize (.str "") + overBudgetStore.currentMemorySize)
      > overBudgetStore.maxMemorySize := by
    rw [hest, hcur, hmax]
    decide
  refine ⟨accounting_overBudgetStore, (MemoryCache.Set_fst_eq_true_iff _ _ _ _ _).mpr hadm, ?_⟩
  rw [MemoryCache.Set_maxMemorySize, MemoryCache.Set_currentMemorySize_of_accept hadm, hlk,
    hest, hcur, hmax]
  decide

/-- C2, amended.  For every store in which `currentMemorySize`, an `int64`, is the exact
sum of the entry sizes and no entry has a negative size, and every key, value and ttl
such that `estimatedSize(value) + currentMemorySize` is below `2 ^ 63`, the first number
that does not fit into an `int64`: if `Set` returns true, then afterwards
`currentMemorySize <= maxMemorySize`, also when an entry is replaced. -/
theorem set_within_budget (m : MemoryCache) (now : Int) (key : String) (value : GoVal)
    (expire : Int)
    (hcur : InInt64 m.currentMemorySize)
    (hacc : m.currentMemorySize = sumSizes m.cacheMap)
    (hnn : ∀ e ∈ m.cacheMap.entries, 0 ≤ e.2.size)
    (hfit : estimatedSize value + m.currentMemorySize < 2 ^ 63)
    (hset : (m.Set now key value expire).1 = true) :
    (m.Set now key value expire).2.currentMemorySize
      ≤ (m.Set now key value expire).2.maxMemorySize := by
  have hadm := (MemoryCache.Set_fst_eq_true_iff _ _ _ _ _).mp hset
  have hcur0 : 0 ≤ m.currentMemorySize := by
    rw [hacc]; exact sumSizesList_nonneg _ hnn
  have hv : -(2 ^ 63) ≤ estimatedSize value := (estimatedSize_inInt64 value).1
  have hlt : m.currentMemorySize < 2 ^ 63 := hcur.2
  have hsum : wrap64 (estimatedSize value + m.currentMemorySize)
      = estimatedSize value + m.currentMemorySize :=
    wrap64_of_inInt64 ⟨by omega, hfit⟩
  rw [hsum] at hadm
  rw [MemoryCache.Set_maxMemorySize, MemoryCache.Set_currentMemorySize_of_accept
    (by rw [hsum]; exact hadm)]
  cases hl : m.cacheMap.lookup key with
  | none =>
    show wrap64 (m.currentMemorySize + estimatedSize value) ≤ m.maxMemorySize
    rw [add_comm, hsum]
    omega
  | some old =>
    show wrap64 (wrap64 (m.currentMemorySize - old.size) + estimatedSize value)
      ≤ m.maxMemorySize
    obtain ⟨h0, h1⟩ := size_le_sumSizes hnn hl
    rw [← hacc] at h1
    rw [wrap64_of_inInt64 (x := m.currentMemorySize - old.size) ⟨by omega, by omega⟩,
      wrap64_of_inInt64 ⟨by omega, by omega⟩]
    omega

/-- Witness for `set_within_budget`: after `SetMaxMemory("10B")` and
`Set("b", "hello", 60)`, the 5-byte entry `"b"` is replaced by a 2-byte string. -/
theorem set_within_budget_witness :
    (((NewMemoryCache.SetMaxMemory asciiTables "10B").2.Set 0 "b" (.str "hello") 60).2.Set
        1 "b" (.str "hi") 60).1 = true
      ∧ (((NewMemoryCache.SetMaxMemory asciiTables "10B").2.Set 0 "b" (.str "hello") 60).2.Set
          1 "b" (.str "hi") 60).2.currentMemorySize
        ≤ (((NewMemoryCache.SetMaxMemory asciiTables "10B").2.Set 0 "b" (.str "hello") 60).2.Set
          1 "b" (.str "hi") 60).2.maxMemorySize :=
  ⟨by decide,
   set_within_budget
     ((NewMemoryCache.SetMaxMemory asciiTables "10B").2.Set 0 "b" (.str "hello") 60).2
     1 "b" (.str "hi") 60 (by unfold InInt64; decide) (by decide) (by decide) (by decide)
     (by decide)⟩

/-! ## C3 -/

/-- C3, counterexample.  `halfFullStore` has a budget of `2 ^ 62` bytes and holds one
entry of `2 ^ 62` bytes, so `currentMemorySize = 2 ^ 62`.  For `bigValue`, estimated at
`2 ^ 62` bytes, `estimatedSize(value) + currentMemorySize = 2 ^ 63 > maxMemorySize`, and
`Set("b", bigValue, 60)` returns true: the `int64` sum the code compares is
`-2 ^ 63`. -/
theorem set_overflow_accepted_counterexample :
    estimatedSize bigValue = 2 ^ 62
      ∧ halfFullStore.currentMemorySize = 2 ^ 62
      ∧ halfFullStore.maxMemorySize = 2 ^ 62
      ∧ estimatedSize bigValue + halfFullStore.currentMemorySize > halfFullStore.maxMemorySize
      ∧ (halfFullStore.Set 1 "b" bigValue 60).1 = true
      ∧ ¬ ((halfFullStore.Set 1 "b" bigValue 60).1 = false
            ↔ estimatedSize bigValue + halfFullStore.currentMemorySize
                > halfFullStore.maxMemorySize) := by
  obtain ⟨hmax, hcur, _, _⟩ := halfFullStore_fields
  have hadm : ¬ wrap64 (estimatedSize bigValue + halfFullStore.currentMemorySize)
      > halfFullStore.maxMemorySize := by
    rw [estimatedSize_bigValue, hcur, hmax]
    decide
  have hgt : estimatedSize bigValue + halfFullStore.currentMemorySize
      > halfFullStore.maxMemorySize := by
    rw [estimatedSize_bigValue, hcur, hmax]
    decide
  have htrue : (halfFullStore.Set 1 "b" bigValue 60).1 = true :=
    (MemoryCache.Set_fst_eq_true_iff _ _ _ _ _).mpr hadm
  refine ⟨estimatedSize_bigValue, hcur, hmax, hgt, htrue, fun hiff => ?_⟩
  have hfalse := hiff.mpr hgt
  rw [htrue] at hfalse
  cases hfalse

/-- C3, amended (admission rejection is atomic).  `Set` returns false exactly when the
`int64` (wrap-around) sum `estimatedSize(value) + currentMemorySize` exceeds
`maxMemorySize`, which is the exact comparison whenever the exact sum fits into an
`int64`; and when `Set` returns false the store after the call is the store before it.
With budget `"1B"` on a new store, `Set("x", "a large string", ttl)` returns false and
the map stays empty. -/
theorem set_rejection_atomic (U : UnicodeTables) (m : MemoryCache) (now : Int) (key : String)
    (value : GoVal) (expire : Int) :
    ((m.Set now key value expire).1 = false
        ↔ wrap64 (estimatedSize value + m.currentMemorySize) > m.maxMemorySize)
      ∧ (InInt64 (estimatedSize value + m.currentMemorySize) →
          ((m.Set now key value expire).1 = false
            ↔ estimatedSize value + m.currentMemorySize > m.maxMemorySize))
      ∧ ((m.Set now key value expire).1 = false → (m.Set now key value expire).2 = m)
      ∧ (NewMemoryCache.SetMaxMemory U "1B").2.Set now "x" (.str "a large string") expire
          = (false, (NewMemoryCache.SetMaxMemory U "1B").2)
      ∧ (NewMemoryCache.SetMaxMemory U "1B").2.cacheMap = ∅ := by
  refine ⟨MemoryCache.Set_fst_eq_false_iff m now key value expire, ?_, ?_, ?_, ?_⟩
  · intro hin
    have h := MemoryCache.Set_fst_eq_false_iff m now key value expire
    rw [wrap64_of_inInt64 hin] at h
    exact h
  · intro h
    rw [MemoryCache.Set_of_reject ((MemoryCache.Set_fst_eq_false_iff _ _ _ _ _).mp h)]
  · apply MemoryCache.Set_of_reject
    rw [MemoryCache.SetMaxMemory_currentMemorySize, MemoryCache.SetMaxMemory_maxMemorySize,
      ParseSize_ascii U "1B" (by decide)]
    decide
  · rw [MemoryCache.SetMaxMemory_cacheMap]
    rfl

/-! ## Lookups after each operation -/

namespace MemoryCache

theorem lookup_Set_self {m : MemoryCache} {now : Int} {key : String} {value : GoVal}
    {expire : Int} (h : (m.Set now key value expire).1 = true) :
    (m.Set now key value expire).2.cacheMap.lookup key
      = some { value := value, expire := now + expire, size := estimatedSize value } := by
  rw [Set_cacheMap_of_accept ((Set_fst_eq_true_iff _ _ _ _ _).mp h), AList.lookup_insert]

theorem Get_of_lookup_none {m : MemoryCache} {now : Int} {key : String}
    (h : m.cacheMap.lookup key = none) : m.Get now key = ((none, false), m) := by
  simp only [Get, h]

theorem Get_of_expired {m : MemoryCache} {now : Int} {key : String} {v : Value}
    (h : m.cacheMap.lookup key = some v) (he : v.expire < now) :
    m.Get now key = ((none, false), (m.deleteKey key).2) := by
  simp only [Get, h, if_pos he]

theorem Get_of_live {m : MemoryCache} {now : Int} {key : String} {v : Value}
    (h : m.cacheMap.lookup key = some v) (he : ¬ v.expire < now) :
    m.Get now key = ((some v, true), m) := by
  simp only [Get, h, if_neg he]

/-- After `Get`, the entry of a key is as before, unless the key is the one read and its
entry had expired, in which case it is gone. -/
theorem lookup_Get (m : MemoryCache) (now : Int) (key k : String) :
    (m.Get now key).2.cacheMap.lookup k = m.cacheMap.lookup k
      ∨ ((m.Get now key).2.cacheMap.lookup k = none
          ∧ ∃ e, m.cacheMap.lookup k = some e ∧ e.expire < now) := by
  cases h : m.cacheMap.lookup key with
  | none => rw [Get_of_lookup_none h]; exact Or.inl rfl
  | some v =>
    by_cases he : v.expire < now
    · rw [Get_of_expired h he, lookup_deleteKey]
      by_cases hk : k = key
      · subst hk
        exact Or.inr ⟨by simp, v, h, he⟩
      · exact Or.inl (by simp [hk])
    · rw [Get_of_live h he]; exact Or.inl rfl

theorem lookup_sweepEntry (now : Int) (m : MemoryCache) (e : Sigma (fun _ : String => Value))
    (k : String) :
    (sweepEntry now m e).cacheMap.lookup k
      = if e.2.expire < now ∧ k = e.1 then none else m.cacheMap.lookup k := by
  unfold sweepEntry
  by_cases he : e.2.expire < now
  · rw [if_pos he, lookup_deleteKey]
    by_cases hk : k = e.1 <;> simp [he, hk]
  · rw [if_neg he]
    simp [he]

/-- A sweeper iteration leaves under a key what was there, or nothing. -/
theorem lookup_sweepEntry_none_or (now : Int) (m : MemoryCache)
    (e : Sigma (fun _ : String => Value)) (k : String) :
    (sweepEntry now m e).cacheMap.lookup k = none
      ∨ (sweepEntry now m e).cacheMap.lookup k = m.cacheMap.lookup k := by
  rw [lookup_sweepEntry]
  by_cases h : e.2.expire < now ∧ k = e.1
  · exact Or.inl (if_pos h)
  · exact Or.inr (if_neg h)

theorem lookup_sweepFrom_none_or (clock : Nat → Int) (k : String) :
    ∀ (l : List (Sigma (fun _ : String => Value))) (i : Nat) (m : MemoryCache),
      (sweepFrom clock i m l).cacheMap.lookup k = none
        ∨ (sweepFrom clock i m l).cacheMap.lookup k = m.cacheMap.lookup k
  | [], _, _ => Or.inr rfl
  | e :: l, i, m => by
    rw [sweepFrom]
    rcases lookup_sweepFrom_none_or clock k l (i + 1) (sweepEntry (clock i) m e) with h | h
    · exact Or.inl h
    · rw [h]
      exact lookup_sweepEntry_none_or (clock i) m e k

/-- Iterations over entries of other keys leave the entry of `k` as it was. -/
theorem lookup_sweepFrom_of_not_mem (clock : Nat → Int) (k : String) :
    ∀ (l : List (Sigma (fun _ : String => Value))) (i : Nat) (m : MemoryCache),
      k ∉ l.keys → (sweepFrom clock i m l).cacheMap.lookup k = m.cacheMap.lookup k
  | [], _, _, _ => rfl
  | e :: l, i, m, h => by
    have hk : k ≠ e.1 := fun hh => h (hh ▸ List.mem_cons_self _ _)
    have hl : k ∉ l.keys := fun hh => h (List.mem_cons_of_mem _ hh)
    rw [sweepFrom, lookup_sweepFrom_of_not_mem clock k l (i + 1) _ hl, lookup_sweepEntry,
      if_neg (fun hh => hk hh.2)]

/-- Scanning a list of entries with distinct keys from iteration `i` on: the key of the
entry at position `j` holds afterwards nothing if the entry was found expired at the
clock reading of iteration `i + j`, and what it held before otherwise. -/
theorem lookup_sweepFrom_getElem (clock : Nat → Int) :
    ∀ (l : List (Sigma (fun _ : String => Value))) (i : Nat) (m : MemoryCache),
      l.NodupKeys → ∀ (j : Nat) (e : Sigma (fun _ : String => Value)), l[j]? = some e →
      (sweepFrom clock i m l).cacheMap.lookup e.1
        = if e.2.expire < clock (i + j) then none else m.cacheMap.lookup e.1
  | [], _, _, _, j, e, h => by simp at h
  | d :: l, i, m, hnd, j, e, h => by
    obtain ⟨hfresh, hnd2⟩ := List.nodupKeys_cons.mp hnd
    rw [sweepFrom]
    cases j with
    | zero =>
      have hde : d = e := by simpa using h
      subst hde
      rw [lookup_sweepFrom_of_not_mem clock d.1 l (i + 1) _ hfresh, lookup_sweepEntry]
      simp
    | succ j =>
      have hl : l[j]? = some e := by simpa using h
      have hne : e.1 ≠ d.1 := by
        intro heq
        exact hfresh (heq ▸ List.mem_keys_of_mem (List.getElem?_mem hl))
      have hm : (sweepEntry (clock i) m d).cacheMap.lookup e.1 = m.cacheMap.lookup e.1 := by
        rw [lookup_sweepEntry, if_neg (fun hh => hne hh.2)]
      have hij : i + 1 + j = i + (j + 1) := by omega
      rw [lookup_sweepFrom_getElem clock l (i + 1) _ hnd2 j e hl, hm, hij]

/-- After an uninterrupted pass, the key of the entry that the scan met in iteration `i`
holds nothing if the entry had `expire` before the clock reading of that iteration, and
that entry otherwise. -/
theorem lookup_clearExpireCache_getElem (m : MemoryCache) (clock : Nat → Int) (i : Nat)
    (e : Sigma (fun _ : String => Value)) (h : m.cacheMap.entries[i]? = some e) :
    (m.clearExpireCache clock).cacheMap.lookup e.1
      = if e.2.expire < clock i then none else some e.2 := by
  have hl : m.cacheMap.lookup e.1 = some e.2 :=
    AList.mem_lookup_iff.mpr (by cases e; exact List.getElem?_mem h)
  unfold clearExpireCache
  rw [lookup_sweepFrom_getElem clock _ 0 m m.cacheMap.nodupKeys i e h, hl, Nat.zero_add]

/-- A key without an entry before an uninterrupted pass has none after it. -/
theorem lookup_clearExpireCache_of_none (m : MemoryCache) (clock : Nat → Int) (k : String)
    (h : m.cacheMap.lookup k = none) : (m.clearExpireCache clock).cacheMap.lookup k = none := by
  unfold clearExpireCache
  rcases lookup_sweepFrom_none_or clock k m.cacheMap.entries 0 m with h1 | h1
  · exact h1
  · rw [h1, h]

/-- An entry left by an uninterrupted pass was in the map before, and the iteration
that met it read a clock not after its `expire`. -/
theorem lookup_clearExpireCache_some (m : MemoryCache) (clock : Nat → Int) (k : String)
    (v : Value) (h : (m.clearExpireCache clock).cacheMap.lookup k = some v) :
    ∃ i, m.cacheMap.entries[i]? = some ⟨k, v⟩ ∧ ¬ v.expire < clock i := by
  have h0 : m.cacheMap.lookup k = some v := by
    rcases lookup_sweepFrom_none_or clock k m.cacheMap.entries 0 m with h1 | h1
    · have h2 : (m.clearExpireCache clock).cacheMap.lookup k = none := h1
      rw [h2] at h
      cases h
    · have h2 : (m.clearExpireCache clock).cacheMap.lookup k = m.cacheMap.lookup k := h1
      rw [← h2]
      exact h
  have hmem : (⟨k, v⟩ : Sigma (fun _ : String => Value)) ∈ m.cacheMap.entries :=
    AList.mem_lookup_iff.mp h0
  obtain ⟨i, hi⟩ := List.mem_iff_getElem?.mp hmem
  refine ⟨i, hi, fun hlt => ?_⟩
  have h3 := lookup_clearExpireCache_getElem m clock i ⟨k, v⟩ hi
  rw [if_pos hlt] at h3
  have h4 : (m.clearExpireCache clock).cacheMap.lookup k = none := h3
  rw [h4] at h
  cases h

/-- After an uninterrupted pass during which the clock reads `now` throughout, a key
holds the entry it held before if that entry has `expire >= now`, and nothing
otherwise. -/
theorem lookup_clearExpireCache_const (m : MemoryCache) (now : Int) (k : String) :
    (m.clearExpireCache (fun _ => now)).cacheMap.lookup k
      = match m.cacheMap.lookup k with
        | some v => if v.expire < now then none else some v
        | none => none := by
  cases h : m.cacheMap.lookup k with
  | none => exact lookup_clearExpireCache_of_none m _ k h
  | some v =>
    have hmem : (⟨k, v⟩ : Sigma (fun _ : String => Value)) ∈ m.cacheMap.entries :=
      AList.mem_lookup_iff.mp h
    obtain ⟨i, hi⟩ := List.mem_iff_getElem?.mp hmem
    exact lookup_clearExpireCache_getElem m (fun _ => now) i ⟨k, v⟩ hi

end MemoryCache

/-- An operation that is no `Set`, `Delete` or `Flush` touching `k` leaves the entry of
`k` as it was, or removes it. -/
theorem lookup_step_untouched (U : UnicodeTables) (m : MemoryCache) (op : Op) (k : String)
    (h : op.touches k = false) :
    (step U m op).cacheMap.lookup k = m.cacheMap.lookup k
      ∨ (step U m op).cacheMap.lookup k = none := by
  cases op with
  | SetMaxMemory size => exact Or.inl (MemoryCache.SetMaxMemory_cacheMap U m size ▸ rfl)
  | Set now key value expire =>
    have hk : k ≠ key := by
      intro hkk
      simp [Op.touches, hkk] at h
    exact Or.inl (MemoryCache.lookup_Set_ne m now value expire hk)
  | Get now key =>
    rcases MemoryCache.lookup_Get m now key k with h1 | ⟨h1, _⟩
    · exact Or.inl h1
    · exact Or.inr h1
  | Delete key =>
    have hk : k ≠ key := by
      intro hkk
      simp [Op.touches, hkk] at h
    refine Or.inl ?_
    show (m.deleteKey key).2.cacheMap.lookup k = _
    rw [MemoryCache.lookup_deleteKey, if_neg hk]
  | Exists key => exact Or.inl rfl
  | Flush => simp [Op.touches] at h
  | KeyNum => exact Or.inl rfl
  | sweepEntry now e =>
    rcases MemoryCache.lookup_sweepEntry_none_or now m e k with h1 | h1
    · exact Or.inr h1
    · exact Or.inl h1

/-- An operation no later than `t` that is no `Set`, `Delete` or `Flush` touching `k`,
and that, if it is a sweeper iteration on `k`, tests the entry stored under `k`, keeps
that entry when `t` is not after its expiry. -/
theorem lookup_step_live (U : UnicodeTables) (m : MemoryCache) (op : Op) (k : String)
    (e : Value) (t : Int) (ht : ¬ e.expire < t) (hl : m.cacheMap.lookup k = some e)
    (h : op.touches k = false) (hna : op.notAfter t = true) (hcur : op.sweepsCurrent k e) :
    (step U m op).cacheMap.lookup k = some e := by
  cases op with
  | SetMaxMemory size => exact (MemoryCache.SetMaxMemory_cacheMap U m size).symm ▸ hl
  | Set now key value expire =>
    have hk : k ≠ key := by
      intro hkk
      simp [Op.touches, hkk] at h
    exact (MemoryCache.lookup_Set_ne m now value expire hk).trans hl
  | Get now key =>
    rcases MemoryCache.lookup_Get m now key k with h1 | ⟨_, e2, he2, hlt⟩
    · exact h1.trans hl
    · rw [hl] at he2
      cases he2
      have hle : now ≤ t := by simpa [Op.notAfter] using hna
      omega
  | Delete key =>
    have hk : k ≠ key := by
      intro hkk
      simp [Op.touches, hkk] at h
    show (m.deleteKey key).2.cacheMap.lookup k = _
    rw [MemoryCache.lookup_deleteKey, if_neg hk]
    exact hl
  | Exists key => exact hl
  | Flush => simp [Op.touches] at h
  | KeyNum => exact hl
  | sweepEntry now d =>
    show (MemoryCache.sweepEntry now m d).cacheMap.lookup k = _
    rw [MemoryCache.lookup_sweepEntry]
    have hle : now ≤ t := by simpa [Op.notAfter] using hna
    have hn : ¬ (d.2.expire < now ∧ k = d.1) := by
      rintro ⟨hlt, hk⟩
      have hd : d.2 = e := hcur hk.symm
      rw [hd] at hlt
      omega
    rw [if_neg hn]
    exact hl

/-- While every operation is performed no later than `t`, `t` is not after the expiry
of the entry stored under `k`, and every sweeper iteration on `k` tests that entry,
operations that do not touch `k` keep its entry. -/
theorem lookup_run_live (U : UnicodeTables) (k : String) (e : Value) (t : Int)
    (ht : ¬ e.expire < t) :
    ∀ (ops : List Op) (m : MemoryCache), m.cacheMap.lookup k = some e →
      (∀ op ∈ ops, op.touches k = false) → (∀ op ∈ ops, op.notAfter t = true) →
      (∀ op ∈ ops, op.sweepsCurrent k e) →
      (run U m ops).cacheMap.lookup k = some e
  | [], _, h, _, _, _ => h
  | op :: ops, m, h, h1, h2, h3 => by
    have hstep : (step U m op).cacheMap.lookup k = some e :=
      lookup_step_live U m op k e t ht h (h1 op (List.mem_cons_self op ops))
        (h2 op (List.mem_cons_self op ops)) (h3 op (List.mem_cons_self op ops))
    exact lookup_run_live U k e t ht ops (step U m op) hstep
      (fun o ho => h1 o (List.mem_cons_of_mem op ho))
      (fun o ho => h2 o (List.mem_cons_of_mem op ho))
      (fun o ho => h3 o (List.mem_cons_of_mem op ho))

/-- Operations that do not touch `k` leave under `k` either nothing or the entry that
was there. -/
theorem lookup_run_untouched (U : UnicodeTables) (k : String) (e : Value) :
    ∀ (ops : List Op) (m : MemoryCache),
      (m.cacheMap.lookup k = none ∨ m.cacheMap.lookup k = some e) →
      (∀ op ∈ ops, op.touches k = false) →
      ((run U m ops).cacheMap.lookup k = none ∨ (run U m ops).cacheMap.lookup k = some e)
  | [], _, h, _ => h
  | op :: ops, m, h, h1 => by
    have hstep : (step U m op).cacheMap.lookup k = none
        ∨ (step U m op).cacheMap.lookup k = some e := by
      rcases lookup_step_untouched U m op k (h1 op (List.mem_cons_self op ops)) with
        h3 | h3
      · rw [h3]; exact h
      · exact Or.inl h3
    exact lookup_run_untouched U k e ops (step U m op) hstep
      (fun o ho => h1 o (List.mem_cons_of_mem op ho))

/-- The round trip when no sweeper iteration deletes on a stale test.  Let
`Set(k, v, T)` at clock reading `t0` return true, and let a sequence of operations
follow that contains no `Set` or `Delete` of `k` and no `Flush`.  Then `Get(k)` at a
time `t < t0 + T`, no operation of the sequence being later than `t` and every sweeper
iteration on `k` testing the entry that the `Set` stored, returns that entry with
found = true; and `Get(k)` at any time `t > t0 + T` returns `(nil, false)`. -/
theorem roundtrip_of_current_sweeps (U : UnicodeTables) (m : MemoryCache) (t0 : Int)
    (k : String) (v : GoVal) (T : Int) (ops : List Op) (t : Int)
    (hset : (m.Set t0 k v T).1 = true)
    (hops : ∀ op ∈ ops, op.touches k = false) :
    (t < t0 + T → (∀ op ∈ ops, op.notAfter t = true) →
        (∀ op ∈ ops,
          op.sweepsCurrent k { value := v, expire := t0 + T, size := estimatedSize v }) →
        ((run U (m.Set t0 k v T).2 ops).Get t k).1
          = (some { value := v, expire := t0 + T, size := estimatedSize v }, true))
      ∧ (t0 + T < t → ((run U (m.Set t0 k v T).2 ops).Get t k).1 = (none, false)) := by
  have h0 := MemoryCache.lookup_Set_self hset
  constructor
  · intro hlt hna hcur
    have hlive : ¬ (t0 + T < t) := by omega
    have hl := lookup_run_live U k
      { value := v, expire := t0 + T, size := estimatedSize v } t hlive ops _ h0 hops hna hcur
    rw [MemoryCache.Get_of_live hl hlive]
  · intro hgt
    rcases lookup_run_untouched U k
      { value := v, expire := t0 + T, size := estimatedSize v } ops _ (Or.inr h0) hops with
      hl | hl
    · rw [MemoryCache.Get_of_lookup_none hl]
    · rw [MemoryCache.Get_of_expired hl hgt]

theorem roundtripOps_sweepsCurrent :
    ∀ op ∈ roundtripOps,
      op.sweepsCurrent "key1"
        { value := .str "value1", expire := 0 + 60, size := estimatedSize (.str "value1") } := by
  intro op hop
  simp only [roundtripOps, List.mem_cons, List.mem_singleton, List.not_mem_nil, or_false] at hop
  rcases hop with h | h | h | h | h <;> subst h
  · intro _; rfl
  · trivial
  · trivial
  · intro h; exact absurd h (by decide)
  · trivial

/-- An instance of `roundtrip_of_current_sweeps`: `Set("key1", "value1", 60)` at time 0
on a store with budget 10MB, followed by `roundtripOps`; `Get("key1")` finds the value
at time 59 and reports not-found at time 61. -/
theorem roundtrip_of_current_sweeps_example :
    ((run asciiTables (tenMBStore.Set 0 "key1" (.str "value1") 60).2 roundtripOps).Get
        59 "key1").1
        = (some { value := .str "value1", expire := 0 + 60,
                  size := estimatedSize (.str "value1") }, true)
      ∧ ((run asciiTables (tenMBStore.Set 0 "key1" (.str "value1") 60).2 roundtripOps).Get
          61 "key1").1 = (none, false) :=
  ⟨(roundtrip_of_current_sweeps asciiTables tenMBStore 0 "key1" (.str "value1") 60
      roundtripOps 59 (by decide) (by decide)).1 (by decide) (by decide)
      roundtripOps_sweepsCurrent,
   (roundtrip_of_current_sweeps asciiTables tenMBStore 0 "key1" (.str "value1") 60
      roundtripOps 61 (by decide) (by decide)).2 (by decide)⟩

/-! ## C4 -/

/-- C4, what the code does.  Let an iteration of the sweeper test, at clock reading
`now`, an entry `old` of the key `k` with `expire` before `now`, and let `Set(k, v, T)`
at clock reading `t0` return true before that iteration takes the lock.
The iteration then deletes the entry that the `Set` stored: although the iteration is
no `Set`, `Delete` or `Flush`, every later `Get(k)` returns `(nil, false)`, also at the
times `t` with `t0 <= t < t0 + T`. -/
theorem stale_sweep_deletes_fresh_entry (U : UnicodeTables) (m : MemoryCache) (now t0 : Int)
    (k : String) (old : Value) (v : GoVal) (T t : Int) (hexp : old.expire < now)
    (hset : (m.Set t0 k v T).1 = true) :
    (m.Set t0 k v T).2.cacheMap.lookup k
        = some { value := v, expire := t0 + T, size := estimatedSize v }
      ∧ (Op.sweepEntry now ⟨k, old⟩).touches k = false
      ∧ ((run U (m.Set t0 k v T).2 [.sweepEntry now ⟨k, old⟩]).Get t k).1 = (none, false) := by
  refine ⟨MemoryCache.lookup_Set_self hset, rfl, ?_⟩
  rw [run_cons, run_nil, step_sweepEntry]
  have hl : (MemoryCache.sweepEntry now (m.Set t0 k v T).2 ⟨k, old⟩).cacheMap.lookup k
      = none := by
    rw [MemoryCache.lookup_sweepEntry, if_pos ⟨hexp, rfl⟩]
  rw [MemoryCache.Get_of_lookup_none hl]

/-- Witness for `stale_sweep_deletes_fresh_entry`: in `boundaryStore` the entry of `"k"`
expires at 5; the sweeper tests it at clock reading 10, `Set("k", "fresh", 60)` at clock
reading 10 returns true, the sweeper deletes `"k"`, and `Get("k")` at clock reading 11,
59 time units before the expiry of the new entry, returns `(nil, false)`. -/
theorem stale_sweep_deletes_fresh_entry_witness :
    boundaryStore.cacheMap.lookup "k" = some { value := .str "v", expire := 5, size := 1 }
      ∧ (boundaryStore.Set 10 "k" (.str "fresh") 60).1 = true
      ∧ (10 : Int) ≤ 11 ∧ (11 : Int) < 10 + 60
      ∧ ((run asciiTables (boundaryStore.Set 10 "k" (.str "fresh") 60).2
            [.sweepEntry 10 ⟨"k", { value := .str "v", expire := 5, size := 1 }⟩]).Get
          11 "k").1 = (none, false) :=
  ⟨rfl, by decide, by decide, by decide,
   (stale_sweep_deletes_fresh_entry asciiTables boundaryStore 10 10 "k"
      { value := .str "v", expire := 5, size := 1 } (.str "fresh") 60 11
      (by decide) (by decide)).2.2⟩

/-! ## C5 -/

/-- C8 (flush totality).  For every store, `Flush` returns true and afterwards
`KeyNum() = 0` and `currentMemorySize = 0`, while `maxMemorySize` and its label are
unchanged. -/
theorem flush_total (m : MemoryCache) :
    m.Flush.1 = true
      ∧ (m.Flush.2.KeyNum).1 = 0
      ∧ m.Flush.2.currentMemorySize = 0
      ∧ m.Flush.2.cacheMap = ∅
      ∧ m.Flush.2.maxMemorySize = m.maxMemorySize
      ∧ m.Flush.2.maxMemoryString = m.maxMemoryString :=
  ⟨rfl, rfl, rfl, rfl, rfl, rfl⟩

/-! ## The two fallback branches of `ParseSize` -/

/-- When `strconv.ParseInt` rejects the digits, `ParseSize` returns the fallback with
the error. -/
theorem ParseSize_of_parseInt_error (U : UnicodeTables) (size : String) (e : NumError)
    (h : ParseInt (splitSize U "" "" size.data).1 = .error e) :
    ParseSize U size = (100, "100MB", some e) := by
  simp only [ParseSize, h]

/-- When the digits parse but the letters are none of `B`, `KB`, `MB`, `GB`, `TB`,
`ParseSize` returns the fallback with a nil error. -/
theorem ParseSize_of_unknown_unit (U : UnicodeTables) (size : String) (dn : Int)
    (h : ParseInt (splitSize U "" "" size.data).1 = .ok dn)
    (hu : stringsToUpper U (splitSize U "" "" size.data).2 ∉ ["B", "KB", "MB", "GB", "TB"]) :
    ParseSize U size = (100, "100MB", none) := by
  simp only [List.mem_cons, List.mem_singleton, List.not_mem_nil, or_false, not_or] at hu
  obtain ⟨h1, h2, h3, h4, h5⟩ := hu
  simp only [ParseSize, h, if_neg h1, if_neg h2, if_neg h3, if_neg h4, if_neg h5]

/-- A size string whose digits `strconv.ParseInt` rejects makes `SetMaxMemory` return
false. -/
theorem SetMaxMemory_of_parseInt_error (U : UnicodeTables) (m : MemoryCache) (size : String)
    (e : NumError) (h : ParseInt (splitSize U "" "" size.data).1 = .error e) :
    m.SetMaxMemory U size
      = (false, { m with maxMemorySize := 100, maxMemoryString := "100MB" }) := by
  simp only [MemoryCache.SetMaxMemory, ParseSize_of_parseInt_error U size e h]

/-- A size string with valid digits and an unknown unit makes `SetMaxMemory` return
true. -/
theorem SetMaxMemory_of_unknown_unit (U : UnicodeTables) (m : MemoryCache) (size : String)
    (dn : Int) (h : ParseInt (splitSize U "" "" size.data).1 = .ok dn)
    (hu : stringsToUpper U (splitSize U "" "" size.data).2 ∉ ["B", "KB", "MB", "GB", "TB"]) :
    m.SetMaxMemory U size
      = (true, { m with maxMemorySize := 100, maxMemoryString := "100MB" }) := by
  simp only [MemoryCache.SetMaxMemory, ParseSize_of_unknown_unit U size dn h hu]

/-! ## C9 -/

/-- C9, the code at the failing inputs.  For the size strings `"10XB"` (unit `XB`) and
`"10"` (no unit) `ParseSize` returns a nil error and `SetMaxMemory` returns true,
storing the fallback 100 and label `"100MB"`; for `"abc"` (no digits) `SetMaxMemory`
returns false.  This holds for every choice of the Unicode tables. -/
theorem setMaxMemory_unknown_unit_returns_true (U : UnicodeTables) (m : MemoryCache) :
    (ParseSize U "10XB").2.2 = none
      ∧ m.SetMaxMemory U "10XB"
          = (true, { m with maxMemorySize := 100, maxMemoryString := "100MB" })
      ∧ m.SetMaxMemory U "10"
          = (true, { m with maxMemorySize := 100, maxMemoryString := "100MB" })
      ∧ (m.SetMaxMemory U "abc").1 = false := by
  have h1 : ParseSize U "10XB" = (100, "100MB", none) := by
    rw [ParseSize_ascii U "10XB" (by decide)]; decide
  have h2 : ParseSize U "10" = (100, "100MB", none) := by
    rw [ParseSize_ascii U "10" (by decide)]; decide
  have h3 : ParseSize U "abc" = (100, "100MB", some .ErrSyntax) := by
    rw [ParseSize_ascii U "abc" (by decide)]; decide
  refine ⟨by rw [h1], ?_, ?_, ?_⟩
  · simp only [MemoryCache.SetMaxMemory, h1]
  · simp only [MemoryCache.SetMaxMemory, h2]
  · simp only [MemoryCache.SetMaxMemory, h3]

/-! ## C10 -/

/-- C10, the code at the failing inputs.  For the unrecognised size strings `"abc"`
and `"10XB"`, `SetMaxMemory` stores `maxMemorySize = 100` (bytes) with the label
`"100MB"`; 100 megabytes would be `100 * MB = 104857600`. -/
theorem setMaxMemory_fallback_is_100_bytes (U : UnicodeTables) (m : MemoryCache) :
    m.SetMaxMemory U "abc"
        = (false, { m with maxMemorySize := 100, maxMemoryString := "100MB" })
      ∧ (m.SetMaxMemory U "abc").2.maxMemorySize = 100
      ∧ (m.SetMaxMemory U "10XB").2.maxMemorySize = 100
      ∧ (m.SetMaxMemory U "10XB").2.maxMemoryString = "100MB"
      ∧ (m.SetMaxMemory U "abc").2.maxMemorySize ≠ 100 * MB
      ∧ 100 * MB = 104857600 := by
  have h1 : ParseSize U "10XB" = (100, "100MB", none) := by
    rw [ParseSize_ascii U "10XB" (by decide)]; decide
  have h3 : ParseSize U "abc" = (100, "100MB", some .ErrSyntax) := by
    rw [ParseSize_ascii U "abc" (by decide)]; decide
  have e1 : m.SetMaxMemory U "abc"
      = (false, { m with maxMemorySize := 100, maxMemoryString := "100MB" }) := by
    simp only [MemoryCache.SetMaxMemory, h3]
  have e2 : m.SetMaxMemory U "10XB"
      = (true, { m with maxMemorySize := 100, maxMemoryString := "100MB" }) := by
    simp only [MemoryCache.SetMaxMemory, h1]
  refine ⟨e1, by rw [e1], by rw [e2], by rw [e2], ?_, by decide⟩
  rw [e1]
  show (100 : Int) ≠ 100 * MB
  decide

/-! ## Frame lemmas for `Get` and the budget fields -/

namespace MemoryCache

theorem lookup_Get_ne (m : MemoryCache) (now : Int) {key k : String} (hk : k ≠ key) :
    (m.Get now key).2.cacheMap.lookup k = m.cacheMap.lookup k := by
  cases h : m.cacheMap.lookup key with
  | none => rw [Get_of_lookup_none h]
  | some v =>
    by_cases he : v.expire < now
    · rw [Get_of_expired h he, lookup_deleteKey, if_neg hk]
    · rw [Get_of_live h he]

theorem Get_maxMemorySize (m : MemoryCache) (now : Int) (key : String) :
    (m.Get now key).2.maxMemorySize = m.maxMemorySize := by
  cases h : m.cacheMap.lookup key with
  | none => rw [Get_of_lookup_none h]
  | some v =>
    by_cases he : v.expire < now
    · rw [Get_of_expired h he, deleteKey_maxMemorySize]
    · rw [Get_of_live h he]

theorem Get_maxMemoryString (m : MemoryCache) (now : Int) (key : String) :
    (m.Get now key).2.maxMemoryString = m.maxMemoryString := by
  cases h : m.cacheMap.lookup key with
  | none => rw [Get_of_lookup_none h]
  | some v =>
    by_cases he : v.expire < now
    · rw [Get_of_expired h he, deleteKey_maxMemoryString]
    · rw [Get_of_live h he]

end MemoryCache

/-! ## C13 -/

/-- C13 (Exists is raw membership).  `Exists(k)` returns true exactly when `k` is a key
of the map, whatever the expiry of its entry, and leaves the store unchanged.  So when
`k` holds an entry with `expire < now`, `Exists(k)` is true while `Get(k)` at `now`
returns `(nil, false)`; such a state exists (`boundaryStore` at time 6).  After
`Delete(k)`, `Exists(k)` is false. -/
theorem exists_raw_membership (m : MemoryCache) (k : String) (now : Int) :
    ((m.Exists k).1 = true ↔ k ∈ m.cacheMap)
      ∧ (m.Exists k).2 = m
      ∧ (∀ e, m.cacheMap.lookup k = some e → e.expire < now →
          (m.Exists k).1 = true ∧ (m.Get now k).1 = (none, false))
      ∧ ((boundaryStore.Exists "k").1 = true ∧ (boundaryStore.Get 6 "k").1 = (none, false))
      ∧ ((m.Delete k).2.Exists k).1 = false := by
  refine ⟨?_, rfl, ?_, ?_, ?_⟩
  · rw [← AList.lookup_isSome]
    rfl
  · intro e hl he
    refine ⟨?_, ?_⟩
    · show (m.cacheMap.lookup k).isSome = true
      rw [hl]; rfl
    · rw [MemoryCache.Get_of_expired hl he]
  · exact ⟨by decide, by rfl⟩
  · show ((m.deleteKey k).2.cacheMap.lookup k).isSome = false
    rw [MemoryCache.lookup_deleteKey, if_pos rfl]
    rfl

/-! ## C17 -/

/-- C17 (replacement is admitted against the pre-replacement total).  The admission
test of `Set` is `v.size + currentMemorySize > maxMemorySize` on the store as it is
before the old entry is removed.  With a budget of 10 bytes and `"k"` holding the
6-byte string `"aaaaaa"`, `Set("k", "bbbbbb", 60)` returns false and leaves the store
as it was, although `currentMemorySize - 6 + 6 = 6 <= 10`. -/
theorem set_replacement_counts_old_entry :
    (∀ (m : MemoryCache) (now : Int) (key : String) (value : GoVal) (expire : Int),
        (m.Set now key value expire).1 = false
          ↔ wrap64 (estimatedSize value + m.currentMemorySize) > m.maxMemorySize)
      ∧ (tenByteStore.Set 0 "k" (.str "aaaaaa") 60).2.maxMemorySize = 10
      ∧ (tenByteStore.Set 0 "k" (.str "aaaaaa") 60).2.currentMemorySize = 6
      ∧ ((tenByteStore.Set 0 "k" (.str "aaaaaa") 60).2.cacheMap.lookup "k").map
          (fun e => e.size) = some 6
      ∧ estimatedSize (.str "bbbbbb") = 6
      ∧ ((tenByteStore.Set 0 "k" (.str "aaaaaa") 60).2.Set 1 "k" (.str "bbbbbb") 60).1 = false
      ∧ ((tenByteStore.Set 0 "k" (.str "aaaaaa") 60).2.Set 1 "k" (.str "bbbbbb") 60).2.cacheMap.lookup
          "k" = (tenByteStore.Set 0 "k" (.str "aaaaaa") 60).2.cacheMap.lookup "k"
      ∧ (tenByteStore.Set 0 "k" (.str "aaaaaa") 60).2.currentMemorySize - 6
          + estimatedSize (.str "bbbbbb")
          ≤ (tenByteStore.Set 0 "k" (.str "aaaaaa") 60).2.maxMemorySize :=
  ⟨fun m now key value expire => MemoryCache.Set_fst_eq_false_iff m now key value expire,
   by decide, by decide, by decide, by decide, by decide, by rfl, by decide⟩

/-! ## C19 -/

/-- C19 (single-key operations are framed).  For keys `j ≠ k`, each of `Set(k, v, ttl)`,
`Get(k)` and `Delete(k)` leaves the entry stored under `j` (or its absence) exactly as
it was; and none of `Set`, `Get`, `Delete`, `Exists`, `Flush`, `KeyNum` changes
`maxMemorySize` or `maxMemoryString`. -/
theorem single_key_frame (m : MemoryCache) (now : Int) (k j : String) (v : GoVal) (ttl : Int)
    (hjk : j ≠ k) :
    ((m.Set now k v ttl).2.cacheMap.lookup j = m.cacheMap.lookup j
        ∧ (m.Get now k).2.cacheMap.lookup j = m.cacheMap.lookup j
        ∧ (m.Delete k).2.cacheMap.lookup j = m.cacheMap.lookup j)
      ∧ ((m.Set now k v ttl).2.maxMemorySize = m.maxMemorySize
        ∧ (m.Get now k).2.maxMemorySize = m.maxMemorySize
        ∧ (m.Delete k).2.maxMemorySize = m.maxMemorySize
        ∧ (m.Exists k).2.maxMemorySize = m.maxMemorySize
        ∧ m.Flush.2.maxMemorySize = m.maxMemorySize
        ∧ m.KeyNum.2.maxMemorySize = m.maxMemorySize)
      ∧ ((m.Set now k v ttl).2.maxMemoryString = m.maxMemoryString
        ∧ (m.Get now k).2.maxMemoryString = m.maxMemoryString
        ∧ (m.Delete k).2.maxMemoryString = m.maxMemoryString
        ∧ (m.Exists k).2.maxMemoryString = m.maxMemoryString
        ∧ m.Flush.2.maxMemoryString = m.maxMemoryString
        ∧ m.KeyNum.2.maxMemoryString = m.maxMemoryString) := by
  refine ⟨⟨MemoryCache.lookup_Set_ne m now v ttl hjk, MemoryCache.lookup_Get_ne m now hjk, ?_⟩,
    ⟨MemoryCache.Set_maxMemorySize m now k v ttl, MemoryCache.Get_maxMemorySize m now k,
      MemoryCache.deleteKey_maxMemorySize m k, rfl, rfl, rfl⟩,
    ⟨MemoryCache.Set_maxMemoryString m now k v ttl, MemoryCache.Get_maxMemoryString m now k,
      MemoryCache.deleteKey_maxMemoryString m k, rfl, rfl, rfl⟩⟩
  show (m.deleteKey k).2.cacheMap.lookup j = _
  rw [MemoryCache.lookup_deleteKey, if_neg hjk]

/-- Witness for `single_key_frame`: in `boundaryStore`, which holds `"k"`, the
operations on `"other"` leave the entry of `"k"` in place. -/
theorem single_key_frame_witness :
    (boundaryStore.Set 1 "other" (.str "x") 9).2.cacheMap.lookup "k"
        = boundaryStore.cacheMap.lookup "k"
      ∧ (boundaryStore.Get 7 "other").2.cacheMap.lookup "k" = boundaryStore.cacheMap.lookup "k"
      ∧ (boundaryStore.Delete "other").2.cacheMap.lookup "k"
        = boundaryStore.cacheMap.lookup "k" :=
  ⟨(single_key_frame boundaryStore 1 "other" "k" (.str "x") 9 (by decide)).1.1,
   (single_key_frame boundaryStore 7 "other" "k" (.str "x") 9 (by decide)).1.2⟩

/-! ## The number of keys after `Set` -/

namespace MemoryCache

theorem KeyNum_eq_keys_length (m : MemoryCache) :
    (m.KeyNum).1 = (m.cacheMap.keys.length : Int) := by
  show ((m.cacheMap.entries.length : Nat) : Int) = ((m.cacheMap.entries.map Sigma.fst).length : Int)
  rw [List.length_map]

theorem keys_Set_of_accept {m : MemoryCache} {now : Int} {key : String} {value : GoVal}
    {expire : Int} (h : (m.Set now key value expire).1 = true) :
    (m.Set now key value expire).2.cacheMap.keys = key :: m.cacheMap.keys.erase key := by
  rw [Set_cacheMap_of_accept ((Set_fst_eq_true_iff _ _ _ _ _).mp h), AList.keys_insert,
    AList.keys_erase]
  congr 1
  apply List.erase_of_not_mem
  exact (List.Nodup.mem_erase_iff (AList.keys_nodup m.cacheMap)).not.mpr (fun hh => hh.1 rfl)

theorem mem_Set_of_accept {m : MemoryCache} {now : Int} {key : String} {value : GoVal}
    {expire : Int} (h : (m.Set now key value expire).1 = true) (j : String) :
    j ∈ (m.Set now key value expire).2.cacheMap ↔ j = key ∨ j ∈ m.cacheMap := by
  rw [AList.mem_keys, keys_Set_of_accept h, List.mem_cons, AList.mem_keys]
  by_cases hj : j = key
  · simp [hj]
  · simp [hj, List.mem_erase_of_ne hj]

/-- An admitted `Set` on a key that is present leaves the number of keys unchanged. -/
theorem KeyNum_Set_of_mem {m : MemoryCache} {now : Int} {key : String} {value : GoVal}
    {expire : Int} (h : (m.Set now key value expire).1 = true) (hk : key ∈ m.cacheMap) :
    ((m.Set now key value expire).2.KeyNum).1 = (m.KeyNum).1 := by
  rw [KeyNum_eq_keys_length, KeyNum_eq_keys_length, keys_Set_of_accept h, List.length_cons,
    List.length_erase_of_mem (AList.mem_keys.mp hk)]
  have hpos : 0 < m.cacheMap.keys.length := List.length_pos_of_mem (AList.mem_keys.mp hk)
  omega

/-- An admitted `Set` on a key that is absent adds one key. -/
theorem KeyNum_Set_of_not_mem {m : MemoryCache} {now : Int} {key : String} {value : GoVal}
    {expire : Int} (h : (m.Set now key value expire).1 = true) (hk : key ∉ m.cacheMap) :
    ((m.Set now key value expire).2.KeyNum).1 = (m.KeyNum).1 + 1 := by
  rw [KeyNum_eq_keys_length, KeyNum_eq_keys_length, keys_Set_of_accept h, List.length_cons,
    List.erase_of_not_mem (fun hh => hk (AList.mem_keys.mpr hh))]
  push_cast
  rfl

end MemoryCache

/-- After successful `Set` calls on pairwise distinct keys, none of which is in the map
at the start, the number of keys has grown by the number of calls. -/
theorem KeyNum_setAll :
    ∀ (items : List (Int × String × GoVal × Int)) (m : MemoryCache),
      (items.map (fun it => it.2.1)).Nodup → (∀ it ∈ items, it.2.1 ∉ m.cacheMap) →
      (setAll m items).1 = true →
      ((setAll m items).2.KeyNum).1 = (m.KeyNum).1 + (items.length : Int)
  | [], m, _, _, _ => by
    show (m.KeyNum).1 = (m.KeyNum).1 + ((0 : Nat) : Int)
    simp
  | (now, key, value, expire) :: rest, m, hnd, hfresh, hall => by
    simp only [setAll, Bool.and_eq_true] at hall
    obtain ⟨h1, h2⟩ := hall
    simp only [List.map_cons, List.nodup_cons] at hnd
    have hk : key ∉ m.cacheMap := hfresh (now, key, value, expire) (List.mem_cons_self _ _)
    have hfresh2 : ∀ it ∈ rest, it.2.1 ∉ (m.Set now key value expire).2.cacheMap := by
      intro it hit hmem
      rcases (MemoryCache.mem_Set_of_accept h1 it.2.1).mp hmem with h3 | h3
      · exact hnd.1 (h3 ▸ List.mem_map_of_mem (fun it => it.2.1) hit)
      · exact hfresh it (List.mem_cons_of_mem _ hit) h3
    have ih := KeyNum_setAll rest (m.Set now key value expire).2 hnd.2 hfresh2 h2
    simp only [setAll]
    rw [ih, MemoryCache.KeyNum_Set_of_not_mem h1 hk, List.length_cons]
    push_cast
    ring

/-! ## C14 -/

/-- C14 (KeyNum is the raw entry count).  `KeyNum()` is the number of keys of the map
and leaves the store unchanged; the clock plays no part, so an expired entry that was
not removed is counted (`boundaryStore`, whose only entry expired at 5, has
`KeyNum() = 1` while `Get` at time 6 reports not-found).  After successful `Set`s of
pairwise distinct keys into a store with an empty map, `KeyNum()` is their number, and
a successful `Set` on a key already present leaves `KeyNum()` unchanged. -/
theorem keyNum_raw_count (m : MemoryCache) :
    (m.KeyNum).1 = (m.cacheMap.keys.length : Int)
      ∧ (m.KeyNum).2 = m
      ∧ ((boundaryStore.KeyNum).1 = 1 ∧ (boundaryStore.Get 6 "k").1 = (none, false))
      ∧ (∀ items : List (Int × String × GoVal × Int),
          m.cacheMap = ∅ → (items.map (fun it => it.2.1)).Nodup → (setAll m items).1 = true →
          ((setAll m items).2.KeyNum).1 = (items.length : Int))
      ∧ (∀ (now : Int) (k : String) (v : GoVal) (ttl : Int),
          (m.Set now k v ttl).1 = true → k ∈ m.cacheMap →
          ((m.Set now k v ttl).2.KeyNum).1 = (m.KeyNum).1) := by
  refine ⟨MemoryCache.KeyNum_eq_keys_length m, rfl, ⟨by decide, by rfl⟩, ?_, ?_⟩
  · intro items hempty hnd hall
    have hfresh : ∀ it ∈ items, it.2.1 ∉ m.cacheMap := by
      intro it _
      rw [hempty]
      exact AList.not_mem_empty _
    rw [KeyNum_setAll items m hnd hfresh hall, MemoryCache.KeyNum_eq_keys_length, hempty]
    simp
  · intro now k v ttl h hk
    exact MemoryCache.KeyNum_Set_of_mem h hk

/-! ## The byte counter and the budget after a sweeper pass -/

theorem foldl_sub_wrap64 :
    ∀ (l : List (Sigma (fun _ : String => Value))) (c : Int),
      l.foldl (fun c e => wrap64 (c - e.2.size)) c
        = if l.isEmpty then c else wrap64 (c - sumSizesList l)
  | [], c => by simp
  | e :: l, c => by
    rw [List.foldl_cons, foldl_sub_wrap64 l]
    cases l with
    | nil => simp [sumSizesList]
    | cons d l =>
      simp only [List.isEmpty_cons, Bool.false_eq_true, if_false]
      rw [wrap64_sub_wrap64]
      congr 1
      simp only [sumSizesList, List.map_cons, List.sum_cons]
      omega

namespace MemoryCache

theorem sweepEntry_maxMemorySize (now : Int) (m : MemoryCache)
    (e : Sigma (fun _ : String => Value)) :
    (sweepEntry now m e).maxMemorySize = m.maxMemorySize := by
  unfold sweepEntry
  split
  · exact deleteKey_maxMemorySize m e.1
  · rfl

theorem sweepEntry_maxMemoryString (now : Int) (m : MemoryCache)
    (e : Sigma (fun _ : String => Value)) :
    (sweepEntry now m e).maxMemoryString = m.maxMemoryString := by
  unfold sweepEntry
  split
  · exact deleteKey_maxMemoryString m e.1
  · rfl

theorem sweepFrom_max (clock : Nat → Int) :
    ∀ (l : List (Sigma (fun _ : String => Value))) (i : Nat) (m : MemoryCache),
      (sweepFrom clock i m l).maxMemorySize = m.maxMemorySize
        ∧ (sweepFrom clock i m l).maxMemoryString = m.maxMemoryString
  | [], _, _ => ⟨rfl, rfl⟩
  | e :: l, i, m => by
    rw [sweepFrom]
    obtain ⟨h1, h2⟩ := sweepFrom_max clock l (i + 1) (sweepEntry (clock i) m e)
    exact ⟨h1.trans (sweepEntry_maxMemorySize (clock i) m e),
      h2.trans (sweepEntry_maxMemoryString (clock i) m e)⟩

/-- Scanning a list of entries with distinct keys, each of them present in the map: the
counter loses, one after the other, the sizes of the entries found expired. -/
theorem sweepFrom_currentMemorySize (clock : Nat → Int) :
    ∀ (l : List (Sigma (fun _ : String => Value))) (i : Nat) (m : MemoryCache),
      l.NodupKeys → (∀ e ∈ l, m.cacheMap.lookup e.1 = some e.2) →
      (sweepFrom clock i m l).currentMemorySize
        = (removedFrom clock i l).foldl (fun c e => wrap64 (c - e.2.size)) m.currentMemorySize
  | [], _, _, _, _ => rfl
  | e :: l, i, m, hnd, hl => by
    obtain ⟨hfresh, hnd2⟩ := List.nodupKeys_cons.mp hnd
    have he : m.cacheMap.lookup e.1 = some e.2 := hl e (List.mem_cons_self e l)
    have hrest : ∀ d ∈ l, (sweepEntry (clock i) m e).cacheMap.lookup d.1 = some d.2 := by
      intro d hd
      have hne : d.1 ≠ e.1 := by
        intro heq
        exact hfresh (heq ▸ List.mem_keys_of_mem hd)
      rw [lookup_sweepEntry, if_neg (fun hh => hne hh.2)]
      exact hl d (List.mem_cons_of_mem e hd)
    rw [sweepFrom, sweepFrom_currentMemorySize clock l (i + 1) _ hnd2 hrest, removedFrom]
    by_cases hexp : e.2.expire < clock i
    · rw [if_pos hexp, List.foldl_cons]
      congr 1
      unfold sweepEntry
      rw [if_pos hexp, deleteKey_of_lookup_some he]
    · rw [if_neg hexp]
      congr 1
      unfold sweepEntry
      rw [if_neg hexp]

theorem clearExpireCache_currentMemorySize (m : MemoryCache) (clock : Nat → Int) :
    (m.clearExpireCache clock).currentMemorySize
      = if (removedEntries m clock).isEmpty then m.currentMemorySize
        else wrap64 (m.currentMemorySize - sumSizesList (removedEntries m clock)) := by
  unfold clearExpireCache
  rw [sweepFrom_currentMemorySize clock m.cacheMap.entries 0 m m.cacheMap.nodupKeys
    (fun e he => AList.mem_lookup_iff.mpr (by cases e; exact he)), foldl_sub_wrap64]
  rfl

end MemoryCache

/-- The entries found expired are, position by position, those whose `expire` is
before the clock reading of their iteration. -/
theorem mem_removedFrom (clock : Nat → Int) (e : Sigma (fun _ : String => Value)) :
    ∀ (l : List (Sigma (fun _ : String => Value))) (i : Nat),
      e ∈ removedFrom clock i l ↔ ∃ j, l[j]? = some e ∧ e.2.expire < clock (i + j)
  | [], i => by simp [removedFrom]
  | d :: l, i => by
    have ih := mem_removedFrom clock e l (i + 1)
    have hshift : (∃ j, (d :: l)[j]? = some e ∧ e.2.expire < clock (i + j))
        ↔ ((d = e ∧ e.2.expire < clock i)
            ∨ ∃ j, l[j]? = some e ∧ e.2.expire < clock (i + 1 + j)) := by
      constructor
      · rintro ⟨j, hj, hlt⟩
        cases j with
        | zero =>
          have hde : d = e := by simpa using hj
          exact Or.inl ⟨hde, by simpa using hlt⟩
        | succ j =>
          have hl : l[j]? = some e := by simpa using hj
          have hij : i + 1 + j = i + (j + 1) := by omega
          exact Or.inr ⟨j, hl, by rw [hij]; exact hlt⟩
      · rintro (⟨hde, hlt⟩ | ⟨j, hl, hlt⟩)
        · exact ⟨0, by simp [hde], by simpa using hlt⟩
        · have hij : i + 1 + j = i + (j + 1) := by omega
          exact ⟨j + 1, by simpa using hl, by rw [← hij]; exact hlt⟩
    rw [removedFrom, hshift]
    by_cases hexp : d.2.expire < clock i
    · rw [if_pos hexp, List.mem_cons, ih]
      constructor
      · rintro (h | h)
        · exact Or.inl ⟨h.symm, h ▸ hexp⟩
        · exact Or.inr h
      · rintro (⟨h, _⟩ | h)
        · exact Or.inl h.symm
        · exact Or.inr h
    · rw [if_neg hexp, ih]
      constructor
      · exact Or.inr
      · rintro (⟨h, hlt⟩ | h)
        · exact absurd (h ▸ hlt) hexp
        · exact h

/-! ## C16 -/

/-- C16, counterexample.  In `twoEntryStore` the scan meets `"a"`, expiring at 5, before
`"b"`, expiring at 7.  A pass whose first iteration reads the clock at 4 and whose
second reads it at 8 keeps `"a"` and removes `"b"`: for no single time `now` are the
removed entries exactly those with `expire` before `now`. -/
theorem sweeper_clock_counterexample :
    twoEntryStore.cacheMap.lookup "a" = some { value := .str "y", expire := 5, size := 1 }
      ∧ twoEntryStore.cacheMap.lookup "b" = some { value := .str "x", expire := 7, size := 1 }
      ∧ (twoEntryStore.clearExpireCache clockFourEight).cacheMap.lookup "a"
          = some { value := .str "y", expire := 5, size := 1 }
      ∧ (twoEntryStore.clearExpireCache clockFourEight).cacheMap.lookup "b" = none
      ∧ ∀ now : Int,
          ¬ (∀ k, (twoEntryStore.clearExpireCache clockFourEight).cacheMap.lookup k
                = match twoEntryStore.cacheMap.lookup k with
                  | some v => if v.expire < now then none else some v
                  | none => none) := by
  have ha : twoEntryStore.cacheMap.lookup "a"
      = some { value := .str "y", expire := 5, size := 1 } := rfl
  have hb : twoEntryStore.cacheMap.lookup "b"
      = some { value := .str "x", expire := 7, size := 1 } := rfl
  have ha2 : (twoEntryStore.clearExpireCache clockFourEight).cacheMap.lookup "a"
      = some { value := .str "y", expire := 5, size := 1 } := rfl
  have hb2 : (twoEntryStore.clearExpireCache clockFourEight).cacheMap.lookup "b" = none := rfl
  refine ⟨ha, hb, ha2, hb2, fun now h => ?_⟩
  have h1 := h "a"
  have h2 := h "b"
  rw [ha2, ha] at h1
  rw [hb2, hb] at h2
  by_cases hn : (5 : Int) < now
  · simp [hn] at h1
  · have hn7 : ¬ (7 : Int) < now := by omega
    simp [hn7] at h2

/-- C16, amended (sweeper pass).  One pass over the entries present at its start, with
no other operation in between, the iteration of index `i` reading the clock at
`clock i`.  The key of the entry met in iteration `i` holds afterwards nothing if that
entry had `expire` before `clock i`, and the same entry otherwise; a key without an
entry before has none after; so every entry that remains was present before and had
`expire` not before the clock reading of its iteration.  No entry with `expire` before
a time that no reading precedes remains, and every entry with `expire` not before a
time that no reading exceeds stays.  The removed entries are
those that had `expire` before the clock reading of their own iteration;
`currentMemorySize` is unchanged when there is none, and otherwise decreased (in
`int64`) by their total size; `maxMemorySize` and its label are unchanged.  When the
clock reads the same `now` in every iteration, a key holds afterwards the entry it held
before if that entry has `expire >= now`, and nothing otherwise. -/
theorem sweeper_pass (m : MemoryCache) (clock : Nat → Int) :
    (∀ i e, m.cacheMap.entries[i]? = some e →
        (m.clearExpireCache clock).cacheMap.lookup e.1
          = if e.2.expire < clock i then none else some e.2)
      ∧ (∀ k, m.cacheMap.lookup k = none →
          (m.clearExpireCache clock).cacheMap.lookup k = none)
      ∧ (∀ k v, (m.clearExpireCache clock).cacheMap.lookup k = some v →
          ∃ i, m.cacheMap.entries[i]? = some ⟨k, v⟩ ∧ ¬ v.expire < clock i)
      ∧ (∀ t0, (∀ i, t0 ≤ clock i) →
          ∀ k v, (m.clearExpireCache clock).cacheMap.lookup k = some v → ¬ v.expire < t0)
      ∧ (∀ t1, (∀ i, clock i ≤ t1) →
          ∀ k v, m.cacheMap.lookup k = some v → ¬ v.expire < t1 →
            (m.clearExpireCache clock).cacheMap.lookup k = some v)
      ∧ (∀ e, e ∈ removedEntries m clock
          ↔ ∃ i, m.cacheMap.entries[i]? = some e ∧ e.2.expire < clock i)
      ∧ (m.clearExpireCache clock).currentMemorySize
          = (if (removedEntries m clock).isEmpty then m.currentMemorySize
             else wrap64 (m.currentMemorySize - sumSizesList (removedEntries m clock)))
      ∧ (m.clearExpireCache clock).maxMemorySize = m.maxMemorySize
      ∧ (m.clearExpireCache clock).maxMemoryString = m.maxMemoryString
      ∧ (∀ now k, (m.clearExpireCache (fun _ => now)).cacheMap.lookup k
          = match m.cacheMap.lookup k with
            | some v => if v.expire < now then none else some v
            | none => none) := by
  refine ⟨MemoryCache.lookup_clearExpireCache_getElem m clock,
    MemoryCache.lookup_clearExpireCache_of_none m clock,
    MemoryCache.lookup_clearExpireCache_some m clock, ?_, ?_, ?_,
    MemoryCache.clearExpireCache_currentMemorySize m clock,
    (MemoryCache.sweepFrom_max clock _ 0 m).1, (MemoryCache.sweepFrom_max clock _ 0 m).2,
    MemoryCache.lookup_clearExpireCache_const m⟩
  · intro t0 hfirst k v h hlt
    obtain ⟨i, _, hi⟩ := MemoryCache.lookup_clearExpireCache_some m clock k v h
    have h0 : t0 ≤ clock i := hfirst i
    omega
  · intro t1 hlast k v h hlive
    have hmem : (⟨k, v⟩ : Sigma (fun _ : String => Value)) ∈ m.cacheMap.entries :=
      AList.mem_lookup_iff.mp h
    obtain ⟨i, hi⟩ := List.mem_iff_getElem?.mp hmem
    have h1 : clock i ≤ t1 := hlast i
    have h2 := MemoryCache.lookup_clearExpireCache_getElem m clock i ⟨k, v⟩ hi
    have h3 : ¬ v.expire < clock i := by omega
    rw [if_neg h3] at h2
    exact h2
  · intro e
    unfold removedEntries
    rw [mem_removedFrom]
    simp only [Nat.zero_add]

/-! ## The `int64` reading of an estimate -/

theorem toInt64_of_lt {n : Nat} (h : n < 2 ^ 63) : toInt64 n = (n : Int) := by
  unfold toInt64
  have h1 : n % 2 ^ 64 = n := Nat.mod_eq_of_lt (by omega)
  rw [h1, if_pos h]

theorem utf8ByteSize_go_pos (c : Char) (cs : List Char) :
    0 < String.utf8ByteSize.go (c :: cs) := by
  have h : String.utf8ByteSize.go (c :: cs) = String.utf8ByteSize.go cs + c.utf8Size := rfl
  have hc : 0 < c.utf8Size := Char.utf8Size_pos c
  omega

theorem utf8ByteSize_pos {s : String} (h : s ≠ "") : 0 < s.utf8ByteSize := by
  cases s with
  | mk data =>
    cases data with
    | nil => exact absurd rfl h
    | cons c cs => exact utf8ByteSize_go_pos c cs

/-- On a new store `Set` tests `v.size + 0 > 0`. -/
theorem NewMemoryCache_Set_fst (now : Int) (k : String) (v : GoVal) (ttl : Int) :
    (NewMemoryCache.Set now k v ttl).1 = true ↔ estimatedSize v ≤ 0 := by
  rw [MemoryCache.Set_fst_eq_true_iff]
  have h0 : NewMemoryCache.currentMemorySize = 0 := rfl
  have h1 : NewMemoryCache.maxMemorySize = 0 := rfl
  rw [h0, h1, add_zero, wrap64_of_inInt64 (estimatedSize_inInt64 v)]
  exact not_lt

/-! ## C18 -/

/-- C18, counterexample.  On a new store, never configured, `Set("a", hugeValue, 60)`
returns true and stores the entry, although the estimate of `hugeValue` is
`2 ^ 63` bytes, not 0: as an `int64` the estimate reads `-2 ^ 63`. -/
theorem unconfigured_store_counterexample :
    SizeOfVariable hugeValue = 2 ^ 63
      ∧ estimatedSize hugeValue ≠ 0
      ∧ (NewMemoryCache.Set 0 "a" hugeValue 60).1 = true
      ∧ ((NewMemoryCache.Set 0 "a" hugeValue 60).2.cacheMap.lookup "a").isSome = true := by
  have hset : (NewMemoryCache.Set 0 "a" hugeValue 60).1 = true := by
    rw [NewMemoryCache_Set_fst, estimatedSize_hugeValue]
    decide
  refine ⟨SizeOfVariable_hugeValue, ?_, hset, ?_⟩
  · rw [estimatedSize_hugeValue]
    decide
  · rw [MemoryCache.lookup_Set_self hset]
    rfl

/-- C18, amended (an unconfigured store has a zero budget).  On the store returned by
`NewMemoryCache`, `maxMemorySize = 0`, `currentMemorySize = 0` and the map is empty;
`Set(k, v, ttl)` returns true if and only if the estimated size of `v`, read as an
`int64`, is at most 0; every value whose `int64` estimate is positive, such as any
non-empty string (of fewer than `2 ^ 63` bytes), is rejected and the store stays as it
was. -/
theorem unconfigured_store_zero_budget (now : Int) (k : String) (v : GoVal) (ttl : Int) :
    NewMemoryCache.maxMemorySize = 0
      ∧ NewMemoryCache.currentMemorySize = 0
      ∧ NewMemoryCache.cacheMap = ∅
      ∧ ((NewMemoryCache.Set now k v ttl).1 = true ↔ estimatedSize v ≤ 0)
      ∧ (0 < estimatedSize v → NewMemoryCache.Set now k v ttl = (false, NewMemoryCache))
      ∧ (∀ s : String, s ≠ "" → s.utf8ByteSize < 2 ^ 63 →
          NewMemoryCache.Set now k (.str s) ttl = (false, NewMemoryCache)) := by
  have hrej : ∀ w : GoVal, 0 < estimatedSize w →
      NewMemoryCache.Set now k w ttl = (false, NewMemoryCache) := by
    intro w hw
    apply MemoryCache.Set_of_reject
    have h0 : NewMemoryCache.currentMemorySize = 0 := rfl
    have h1 : NewMemoryCache.maxMemorySize = 0 := rfl
    rw [h0, h1, add_zero, wrap64_of_inInt64 (estimatedSize_inInt64 w)]
    exact hw
  refine ⟨rfl, rfl, rfl, NewMemoryCache_Set_fst now k v ttl, hrej v, ?_⟩
  intro s hs hlen
  apply hrej
  have hpos := utf8ByteSize_pos hs
  have he : estimatedSize (.str s) = (s.utf8ByteSize : Int) := by
    show toInt64 (calculateSize (.str s)) = _
    rw [calculateSize, toInt64_of_lt hlen]
  rw [he]
  exact_mod_cast hpos

/-! ## `SizeOfVariable` of a map -/

theorem isDigit_toNat (c : Char) (h : c.isDigit = true) : 48 ≤ c.toNat ∧ c.toNat ≤ 57 := by
  simp only [Char.isDigit, Bool.and_eq_true, decide_eq_true_eq] at h
  exact ⟨h.1, h.2⟩

theorem toUpper_unit_letter (c : Char) (h : c.toUpper ∈ ['B', 'K', 'M', 'G', 'T']) :
    c ∈ ['B', 'K', 'M', 'G', 'T', 'b', 'k', 'm', 'g', 't'] := by
  have key : ∀ k : Nat, 97 ≤ k → k ≤ 122 →
      Char.ofNat (k - 32) ∈ ['B', 'K', 'M', 'G', 'T'] →
      Char.ofNat k ∈ ['B', 'K', 'M', 'G', 'T', 'b', 'k', 'm', 'g', 't'] := by
    intro k h1 h2
    interval_cases k <;> decide
  by_cases hr : c.toNat ≥ 97 ∧ c.toNat ≤ 122
  · have hu : c.toUpper = Char.ofNat (c.toNat - 32) := by
      show (if c.toNat ≥ 97 ∧ c.toNat ≤ 122 then Char.ofNat (c.toNat - 32) else c) = _
      rw [if_pos hr]
    rw [hu] at h
    have hk := key c.toNat hr.1 hr.2 h
    rwa [Char.ofNat_toNat] at hk
  · have hu : c.toUpper = c := by
      show (if c.toNat ≥ 97 ∧ c.toNat ≤ 122 then Char.ofNat (c.toNat - 32) else c) = _
      rw [if_neg hr]
    rw [hu] at h
    simp only [List.mem_cons, List.mem_singleton, List.not_mem_nil, or_false] at h ⊢
    tauto

theorem unit_letter_facts (c : Char)
    (h : c ∈ ['B', 'K', 'M', 'G', 'T', 'b', 'k', 'm', 'g', 't']) :
    c.isDigit = false ∧ c.isAlpha = true ∧ c.toNat < 128 := by
  simp only [List.mem_cons, List.mem_singleton, List.not_mem_nil, or_false] at h
  rcases h with h | h | h | h | h | h | h | h | h | h <;> subst h <;> decide

theorem mem_unitNames_chars {name : String} (hn : name ∈ unitNames) {d : Char}
    (hd : d ∈ name.data) : d ∈ ['B', 'K', 'M', 'G', 'T'] := by
  simp only [unitNames, List.mem_cons, List.mem_singleton, List.not_mem_nil, or_false] at hn
  rcases hn with h | h | h | h | h <;> subst h <;> revert hd <;> revert d <;> decide

/-- The letters of a case variant of a unit name are ASCII letters. -/
theorem caseVariant_letters {u name : String} (hn : name ∈ unitNames)
    (hu : IsCaseVariant u name) (c : Char) (hc : c ∈ u.data) :
    c.isDigit = false ∧ c.isAlpha = true ∧ c.toNat < 128 := by
  apply unit_letter_facts
  apply toUpper_unit_letter
  apply mem_unitNames_chars hn
  unfold IsCaseVariant at hu
  rw [← hu]
  exact List.mem_map_of_mem Char.toUpper hc

/-! ## `splitSize` on digits followed by letters -/

theorem splitSize_digits :
    ∀ (l : List Char) (n u : String) (rest : List Char), (∀ c ∈ l, c.isDigit = true) →
      splitSize asciiTables n u (l ++ rest) = splitSize asciiTables ⟨n.data ++ l⟩ u rest
  | [], n, u, rest, _ => by simp
  | c :: l, n, u, rest, h => by
    have hc : asciiTables.IsDigit c = true := h c (List.mem_cons_self c l)
    rw [List.cons_append, splitSize, if_pos hc,
      splitSize_digits l _ u rest (fun d hd => h d (List.mem_cons_of_mem c hd))]
    simp [String.push]

theorem splitSize_letters :
    ∀ (l : List Char) (n u : String), (∀ c ∈ l, c.isDigit = false ∧ c.isAlpha = true) →
      splitSize asciiTables n u l = (n, ⟨u.data ++ l⟩)
  | [], n, u, _ => by simp [splitSize]
  | c :: l, n, u, h => by
    have hc := h c (List.mem_cons_self c l)
    have h1 : ¬ asciiTables.IsDigit c = true := by
      show ¬ c.isDigit = true
      rw [hc.1]; simp
    have h2 : asciiTables.IsLetter c = true := hc.2
    rw [splitSize, if_neg h1, if_pos h2,
      splitSize_letters l n _ (fun d hd => h d (List.mem_cons_of_mem c hd))]
    simp [String.push]

/-! ## `strconv.ParseInt` on a digit string -/

theorem le_foldl_decimal :
    ∀ (l : List Char) (acc : Nat),
      acc ≤ l.foldl (fun acc c => acc * 10 + (c.toNat - 48)) acc
  | [], _ => Nat.le_refl _
  | c :: l, acc => by
    rw [List.foldl_cons]
    have := le_foldl_decimal l (acc * 10 + (c.toNat - 48))
    omega

theorem parseUintLoop_digits :
    ∀ (l : List Char) (acc : Nat), (∀ c ∈ l, c.isDigit = true) →
      l.foldl (fun acc c => acc * 10 + (c.toNat - 48)) acc < 2 ^ 64 →
      parseUintLoop acc l = .ok (l.foldl (fun acc c => acc * 10 + (c.toNat - 48)) acc)
  | [], _, _, _ => rfl
  | c :: l, acc, h, hlt => by
    have hc : c.isDigit = true := h c (List.mem_cons_self c l)
    rw [List.foldl_cons] at hlt ⊢
    have hmono := le_foldl_decimal l (acc * 10 + (c.toNat - 48))
    have hn1 : ¬ acc * 10 + (c.toNat - 48) ≥ 2 ^ 64 := by omega
    rw [parseUintLoop, if_pos hc]
    simp only [hn1, if_false]
    exact parseUintLoop_digits l _ (fun d hd => h d (List.mem_cons_of_mem c hd)) hlt

theorem ParseInt_digits {n : String} (hn : IsDigitString n)
    (hlt : decimalValue n.data < 2 ^ 63) : ParseInt n = .ok (decimalValue n.data : Int) := by
  obtain ⟨hne, hdig⟩ := hn
  cases hd : n.data with
  | nil => exact absurd hd hne
  | cons c rest =>
    rw [hd] at hdig hlt
    have hc : c.isDigit = true := hdig c (List.mem_cons_self c rest)
    have hrange := isDigit_toNat c hc
    have hminus : (c == '-') = false := by
      rw [beq_eq_false_iff_ne]
      intro heq; subst heq; revert hrange; decide
    have hplus : (c == '+') = false := by
      rw [beq_eq_false_iff_ne]
      intro heq; subst heq; revert hrange; decide
    have hloop : ParseUint (c :: rest) = .ok (decimalValue (c :: rest)) := by
      unfold ParseUint
      rw [if_neg (List.cons_ne_nil c rest)]
      exact parseUintLoop_digits (c :: rest) 0 hdig (by unfold decimalValue at hlt; omega)
    have hnot : ¬ decimalValue (c :: rest) ≥ 2 ^ 63 := by omega
    simp only [ParseInt, hd, hminus, hplus, Bool.or_self, Bool.false_eq_true, if_false, hloop,
      Bool.not_false, Bool.true_and, decide_eq_true_eq, hnot, Bool.false_and]

/-! ## `ParseSize` on digits followed by a unit -/

/-- On a digit string followed by a case variant of a unit name, `ParseSize` splits the
input into exactly these two parts, for every choice of the Unicode tables. -/
theorem ParseSize_digits_unit_split (U : UnicodeTables) {n u name : String}
    (hn : IsDigitString n) (hname : name ∈ unitNames) (hu : IsCaseVariant u name) :
    splitSize U "" "" (n ++ u).data = (n, u) ∧ stringsToUpper U u = name
      ∧ ∀ c ∈ (n ++ u).data, c.toNat < 128 := by
  have hletters := caseVariant_letters hname hu
  have hascii : ∀ c ∈ (n ++ u).data, c.toNat < 128 := by
    intro c hc
    rw [String.data_append, List.mem_append] at hc
    rcases hc with hc | hc
    · have := isDigit_toNat c (hn.2 c hc)
      omega
    · exact (hletters c hc).2.2
  have hsplit : splitSize asciiTables "" "" (n ++ u).data = (n, u) := by
    rw [String.data_append, splitSize_digits n.data "" "" u.data hn.2,
      splitSize_letters u.data _ "" (fun c hc => ⟨(hletters c hc).1, (hletters c hc).2.1⟩)]
    simp
  refine ⟨(splitSize_ascii U _ "" "" hascii).trans hsplit, ?_, hascii⟩
  rw [stringsToUpper_ascii U u (fun c hc => (hletters c hc).2.2)]
  show String.mk (u.data.map Char.toUpper) = name
  unfold IsCaseVariant at hu
  rw [hu]

/-- The result of `ParseSize` on `<digits><unit>` when the byte count fits into an
`int64`. -/
theorem ParseSize_digits_unit (U : UnicodeTables) (n u name : String) (i : Nat)
    (hn : IsDigitString n) (hi : unitNames[i]? = some name) (hu : IsCaseVariant u name)
    (hfit : decimalValue n.data * 1024 ^ i < 2 ^ 63) :
    ParseSize U (n ++ u) = ((decimalValue n.data : Int) * 1024 ^ i, n ++ name, none) := by
  have hi5 : i < 5 := by
    by_contra hge
    have : unitNames[i]? = none := List.getElem?_eq_none (by simp [unitNames]; omega)
    rw [this] at hi
    cases hi
  have hname : name ∈ unitNames := List.getElem?_mem hi
  obtain ⟨hsplit, hupper, _⟩ := ParseSize_digits_unit_split U hn hname hu
  have hpos : 0 < 1024 ^ i := by positivity
  have hN : decimalValue n.data < 2 ^ 63 := by
    calc decimalValue n.data ≤ decimalValue n.data * 1024 ^ i := Nat.le_mul_of_pos_right _ hpos
      _ < 2 ^ 63 := hfit
  have hparse := ParseInt_digits hn hN
  have hfitZ : ((decimalValue n.data : Int)) * 1024 ^ i < 2 ^ 63 := by exact_mod_cast hfit
  have h0 : (0 : Int) ≤ (decimalValue n.data : Int) * 1024 ^ i := by positivity
  have hwrap : wrap64 ((decimalValue n.data : Int) * 1024 ^ i)
      = (decimalValue n.data : Int) * 1024 ^ i :=
    wrap64_of_inInt64 ⟨by omega, hfitZ⟩
  simp only [ParseSize, hsplit, hupper, hparse]
  interval_cases i
  · simp only [unitNames, List.getElem?_cons_zero, Option.some.injEq] at hi
    subst hi
    simp
  · simp only [unitNames, List.getElem?_cons_succ, List.getElem?_cons_zero,
      Option.some.injEq] at hi
    subst hi
    rw [if_neg (by decide), if_pos rfl]
    rw [show KB = (1024 : Int) ^ 1 by decide, hwrap]
  · simp only [unitNames, List.getElem?_cons_succ, List.getElem?_cons_zero,
      Option.some.injEq] at hi
    subst hi
    rw [if_neg (by decide), if_neg (by decide), if_pos rfl]
    rw [show MB = (1024 : Int) ^ 2 by decide, hwrap]
  · simp only [unitNames, List.getElem?_cons_succ, List.getElem?_cons_zero,
      Option.some.injEq] at hi
    subst hi
    rw [if_neg (by decide), if_neg (by decide), if_neg (by decide), if_pos rfl]
    rw [show GB = (1024 : Int) ^ 3 by decide, hwrap]
  · simp only [unitNames, List.getElem?_cons_succ, List.getElem?_cons_zero,
      Option.some.injEq] at hi
    subst hi
    rw [if_neg (by decide), if_neg (by decide), if_neg (by decide), if_neg (by decide),
      if_pos rfl]
    rw [show TB = (1024 : Int) ^ 4 by decide, hwrap]

/-! ## C11 -/

/-- C11, counterexample.  `"8388608"` is a digit string with value `2 ^ 23` and `TB` is
the unit of index 4, but `SetMaxMemory("8388608TB")` returns true and stores
`maxMemorySize = -2 ^ 63`, not `8388608 * 1024 ^ 4 = 2 ^ 63`: the product wraps around
in `int64`.  And `SetMaxMemory("9223372036854775808B")` returns false:
`strconv.ParseInt` rejects a number that does not fit into an `int64`. -/
theorem setMaxMemory_overflow_counterexample :
    IsDigitString "8388608"
      ∧ decimalValue "8388608".data = 8388608
      ∧ (NewMemoryCache.SetMaxMemory asciiTables "8388608TB").1 = true
      ∧ (NewMemoryCache.SetMaxMemory asciiTables "8388608TB").2.maxMemorySize
          = -9223372036854775808
      ∧ (8388608 : Int) * 1024 ^ 4 = 9223372036854775808
      ∧ IsDigitString "9223372036854775808"
      ∧ (NewMemoryCache.SetMaxMemory asciiTables "9223372036854775808B").1 = false :=
  ⟨⟨by decide, by decide⟩, by decide, by decide, by decide, by decide,
   ⟨by decide, by decide⟩, by decide⟩

/-- C11, amended (size parsing uses binary multiples).  For every non-empty string `n`
of decimal digits with value `N` and every case variant `u` of the unit name of index
`i` (`B`, `KB`, `MB`, `GB`, `TB` for `i = 0..4`) such that `N * 1024 ^ i < 2 ^ 63`,
`SetMaxMemory(n ++ u)` returns true and stores `maxMemorySize = N * 1024 ^ i` and the
label `n` followed by the upper-case unit name. -/
theorem setMaxMemory_binary_multiples (U : UnicodeTables) (m : MemoryCache)
    (n u name : String) (i : Nat)
    (hn : IsDigitString n) (hi : unitNames[i]? = some name) (hu : IsCaseVariant u name)
    (hfit : decimalValue n.data * 1024 ^ i < 2 ^ 63) :
    m.SetMaxMemory U (n ++ u)
      = (true, { m with
          maxMemorySize := (decimalValue n.data : Int) * 1024 ^ i
          maxMemoryString := n ++ name }) := by
  simp only [MemoryCache.SetMaxMemory, ParseSize_digits_unit U n u name i hn hi hu hfit]

/-- Witness for `setMaxMemory_binary_multiples`: `"10"` with the unit `"mB"`, a case
variant of `MB` (index 2), gives 10485760 bytes and the label `"10MB"`. -/
theorem setMaxMemory_binary_multiples_witness :
    (NewMemoryCache.SetMaxMemory asciiTables ("10" ++ "mB")).1 = true
      ∧ (NewMemoryCache.SetMaxMemory asciiTables ("10" ++ "mB")).2.maxMemorySize = 10485760
      ∧ (NewMemoryCache.SetMaxMemory asciiTables ("10" ++ "mB")).2.maxMemoryString = "10MB" := by
  rw [setMaxMemory_binary_multiples asciiTables NewMemoryCache "10" "mB" "MB" 2
    ⟨by decide, by decide⟩ (by decide) (by unfold IsCaseVariant; decide) (by decide)]
  exact ⟨rfl, by decide, by decide⟩

/-! ## What `ParseSize` reads from a string -/

/-- The first loop of `ParseSize` collects the digits of the string, in order, and the
letters of the string, in order; positions and all other characters are ignored. -/
theorem splitSize_eq_filter (U : UnicodeTables) :
    ∀ (l : List Char) (n u : String),
      splitSize U n u l
        = (⟨n.data ++ l.filter U.IsDigit⟩,
           ⟨u.data ++ l.filter (fun c => !U.IsDigit c && U.IsLetter c)⟩)
  | [], n, u => by simp [splitSize]
  | c :: l, n, u => by
    rw [splitSize]
    by_cases hd : U.IsDigit c = true
    · rw [if_pos hd, splitSize_eq_filter U l]
      simp [String.push, hd]
    · by_cases hl : U.IsLetter c = true
      · rw [if_neg hd, if_pos hl, splitSize_eq_filter U l]
        simp [String.push, hd, hl]
      · rw [if_neg hd, if_neg hl, splitSize_eq_filter U l]
        simp [hd, hl]

/-- A number that `strconv.ParseInt` returns lies in the `int64` range. -/
theorem ParseInt_inInt64 {s : String} {dn : Int} (h : ParseInt s = .ok dn) : InInt64 dn := by
  unfold ParseInt at h
  split at h
  · simp at h
  · rename_i c rest _
    dsimp only at h
    split at h
    · simp at h
    · rename_i un _
      by_cases hneg : (c == '-') = true
      · by_cases hgt : 9223372036854775808 < un
        · simp [hneg, hgt] at h
        · simp [hneg, hgt] at h
          subst h
          unfold InInt64
          constructor <;> omega
      · by_cases hge : 9223372036854775808 ≤ un
        · simp [hneg, hge] at h
        · simp [hneg, hge] at h
          subst h
          unfold InInt64
          constructor <;> omega

/-- The result of `ParseSize` when the digits parse and the letters spell a unit. -/
theorem ParseSize_of_known_unit (U : UnicodeTables) (size : String) (dn : Int) (i : Nat)
    (name : String) (h : ParseInt (splitSize U "" "" size.data).1 = .ok dn)
    (hi : unitNames[i]? = some name)
    (hu : stringsToUpper U (splitSize U "" "" size.data).2 = name) :
    ParseSize U size = (wrap64 (dn * 1024 ^ i), (splitSize U "" "" size.data).1 ++ name, none) := by
  have hi5 : i < 5 := by
    by_contra hge
    have : unitNames[i]? = none := List.getElem?_eq_none (by simp [unitNames]; omega)
    rw [this] at hi
    cases hi
  have hdn := ParseInt_inInt64 h
  simp only [ParseSize, h, hu]
  interval_cases i
  · simp only [unitNames, List.getElem?_cons_zero, Option.some.injEq] at hi
    subst hi
    rw [if_pos rfl, pow_zero, mul_one, wrap64_of_inInt64 hdn]
  · simp only [unitNames, List.getElem?_cons_succ, List.getElem?_cons_zero,
      Option.some.injEq] at hi
    subst hi
    rw [if_neg (by decide), if_pos rfl, show KB = (1024 : Int) ^ 1 by decide]
  · simp only [unitNames, List.getElem?_cons_succ, List.getElem?_cons_zero,
      Option.some.injEq] at hi
    subst hi
    rw [if_neg (by decide), if_neg (by decide), if_pos rfl,
      show MB = (1024 : Int) ^ 2 by decide]
  · simp only [unitNames, List.getElem?_cons_succ, List.getElem?_cons_zero,
      Option.some.injEq] at hi
    subst hi
    rw [if_neg (by decide), if_neg (by decide), if_neg (by decide), if_pos rfl,
      show GB = (1024 : Int) ^ 3 by decide]
  · simp only [unitNames, List.getElem?_cons_succ, List.getElem?_cons_zero,
      Option.some.injEq] at hi
    subst hi
    rw [if_neg (by decide), if_neg (by decide), if_neg (by decide), if_neg (by decide),
      if_pos rfl, show TB = (1024 : Int) ^ 4 by decide]

/-! ## C12 -/

/-- C12, counterexample.  None of `"MB10"`, `"1M0B"`, `"1 0 M B"`, `"-10MB"`, `"10.5MB"`
has the shape digits, unit, yet `ParseSize` returns a size and a nil error for each:
the first four are read as `10MB`, the last one as `105MB`. -/
theorem parseSize_shape_counterexample :
    ParseSize asciiTables "MB10" = (10485760, "10MB", none)
      ∧ ParseSize asciiTables "1M0B" = (10485760, "10MB", none)
      ∧ ParseSize asciiTables "1 0 M B" = (10485760, "10MB", none)
      ∧ ParseSize asciiTables "-10MB" = (10485760, "10MB", none)
      ∧ ParseSize asciiTables "10.5MB" = (110100480, "105MB", none) := by
  decide

/-- C12, amended (what `ParseSize` accepts).  `ParseSize` reads the digits of the
string, in order, as the number and the letters of the string, in order and
upper-cased, as the unit; where they stand and every other character are ignored.  If
`strconv.ParseInt` rejects the digits (none, or no `int64`), the result carries that
error.  If the digits parse as `dn` and the letters spell the unit name of index `i`,
the result is `dn * 1024 ^ i` (as `int64`), the label digits ++ unit, and a nil error.
So `"MB10"`, `"1M0B"`, `"1 0 M B"` and `"-10MB"` are accepted as `10MB`, and `"10.5MB"`
as `105MB`, for every choice of the Unicode tables. -/
theorem parseSize_reads_digits_and_letters (U : UnicodeTables) (size : String) :
    splitSize U "" "" size.data
        = (⟨size.data.filter U.IsDigit⟩,
           ⟨size.data.filter (fun c => !U.IsDigit c && U.IsLetter c)⟩)
      ∧ (∀ e : NumError, ParseInt ⟨size.data.filter U.IsDigit⟩ = .error e →
          ParseSize U size = (100, "100MB", some e))
      ∧ (∀ (dn : Int) (i : Nat) (name : String),
          ParseInt ⟨size.data.filter U.IsDigit⟩ = .ok dn → unitNames[i]? = some name →
          stringsToUpper U ⟨size.data.filter (fun c => !U.IsDigit c && U.IsLetter c)⟩ = name →
          ParseSize U size
            = (wrap64 (dn * 1024 ^ i), String.mk (size.data.filter U.IsDigit) ++ name, none))
      ∧ (ParseSize U "MB10" = (10485760, "10MB", none)
          ∧ ParseSize U "1M0B" = (10485760, "10MB", none)
          ∧ ParseSize U "1 0 M B" = (10485760, "10MB", none)
          ∧ ParseSize U "-10MB" = (10485760, "10MB", none)
          ∧ ParseSize U "10.5MB" = (110100480, "105MB", none)) := by
  have hsplit : splitSize U "" "" size.data
      = (⟨size.data.filter U.IsDigit⟩,
         ⟨size.data.filter (fun c => !U.IsDigit c && U.IsLetter c)⟩) := by
    rw [splitSize_eq_filter U size.data "" ""]
    simp
  refine ⟨hsplit, ?_, ?_, ?_⟩
  · intro e he
    apply ParseSize_of_parseInt_error
    rw [hsplit]
    exact he
  · intro dn i name hdn hi hu
    have h := ParseSize_of_known_unit U size dn i name (by rw [hsplit]; exact hdn) hi
      (by rw [hsplit]; exact hu)
    rw [h, hsplit]
  · refine ⟨?_, ?_, ?_, ?_, ?_⟩
    · rw [ParseSize_ascii U "MB10" (by decide)]; decide
    · rw [ParseSize_ascii U "1M0B" (by decide)]; decide
    · rw [ParseSize_ascii U "1 0 M B" (by decide)]; decide
    · rw [ParseSize_ascii U "-10MB" (by decide)]; decide
    · rw [ParseSize_ascii U "10.5MB" (by decide)]; decide

/-! ## C15 -/

/-- C15, the code against the claim.  In the traces of `Set`, `Get`, `Delete`, `Exists`,
`Flush` and `KeyNum` every read and write of the map and of the byte counter happens
with the lock held, and `SetMaxMemory` touches neither.  The sweeper does not comply:
the range loop of `clearExpireCache` reads the map with no lock held, so on every store
with at least one entry (for instance `boundaryStore`) a pass has an unguarded read. -/
theorem sweeper_reads_map_unlocked (m : MemoryCache) (now : Int) (key : String)
    (value : GoVal) :
    (lockedAccesses false (m.SetTrace key value) = true
        ∧ lockedAccesses false (m.GetTrace now key) = true
        ∧ lockedAccesses false (m.DeleteTrace key) = true
        ∧ lockedAccesses false MemoryCache.ExistsTrace = true
        ∧ lockedAccesses false MemoryCache.FlushTrace = true
        ∧ lockedAccesses false MemoryCache.KeyNumTrace = true
        ∧ lockedAccesses false MemoryCache.SetMaxMemoryTrace = true)
      ∧ (m.cacheMap.entries ≠ [] → lockedAccesses false (m.clearExpireCacheTrace now) = false)
      ∧ (boundaryStore.cacheMap.entries.length = 1
          ∧ lockedAccesses false (boundaryStore.clearExpireCacheTrace 6) = false) := by
  have hsweep : ∀ (s : MemoryCache) (t : Int), s.cacheMap.entries ≠ [] →
      lockedAccesses false (s.clearExpireCacheTrace t) = false := by
    intro s t hne
    unfold MemoryCache.clearExpireCacheTrace
    cases hl : s.cacheMap.entries with
    | nil => exact absurd hl hne
    | cons e l => simp [MemoryCache.sweepTrace, MemoryCache.sweepEntryTrace, lockedAccesses]
  have hlen : boundaryStore.cacheMap.entries.length = 1 := by decide
  refine ⟨⟨?_, ?_, ?_, by decide, by decide, by decide, by decide⟩, hsweep m now,
    hlen, hsweep boundaryStore 6 ?_⟩
  · simp only [MemoryCache.SetTrace]
    split_ifs
    · simp [lockedAccesses]
    · cases hl : m.cacheMap.lookup key <;>
        simp [MemoryCache.deleteKeyTrace, MemoryCache.addKeyTrace, hl, lockedAccesses]
  · unfold MemoryCache.GetTrace
    cases hl : m.cacheMap.lookup key with
    | none => simp [lockedAccesses]
    | some v =>
      by_cases hv : v.expire < now
      · simp [hv, MemoryCache.deleteKeyTrace, hl, lockedAccesses]
      · simp [hv, lockedAccesses]
  · unfold MemoryCache.DeleteTrace
    cases hl : m.cacheMap.lookup key <;>
      simp [MemoryCache.deleteKeyTrace, hl, lockedAccesses]
  · intro h
    rw [h] at hlen
    cases hlen

end CacheSystem
